import Mathlib

/-! AttributeTopology: primitives, topologies and their binary format

A shallow embedding of `openvdb/points/AttributeTopology.h` and
`openvdb/points/AttributeTopology.cc`.

* Machine integers are natural numbers; every narrowing conversion of the
  source (`static_cast<uint16_t>`, `uint32_t numPrimitives(...)`, the `Index`
  returned by `size()`) is an explicit reduction modulo `2^16` or `2^32`.
* Streams are lists of bytes.  An output stream only grows at its end; an
  input stream carries the bytes not yet consumed and its fail bit.
* `std::shared_ptr<Primitive>` is an optional address into a heap of
  primitives, so that two handles can name the same primitive.
* Calls that throw, abort or dereference an empty handle return an `Error`.
* The attribute store (`AttributeSet`, its `Descriptor`, `AttributeArray` and
  the paged streams) is declared in headers that are not part of the sources at
  hand; it is modelled from the specification and marked as such.
-/

namespace openvdb.points

/-! ## Integers, names, streams -/

/-- One byte of a stream. -/
abbrev Byte := Nat

/-- The 32-bit unsigned `openvdb::Index`. -/
abbrev Index := Nat

/-- A `Name` is a `std::string`: a sequence of bytes. -/
abbrev Name := List Byte

/-- A `NamePair` names a value type and a codec. -/
abbrev NamePair := Name × Name

/-- Range of `uint16_t`. -/
def UINT16_RANGE : Nat := 2 ^ 16

/-- Range of `uint32_t` and of `Index`. -/
def UINT32_RANGE : Nat := 2 ^ 32

/-- The object representation of an unsigned integer of `w` bytes, least
significant byte first: what `reinterpret_cast<const char*>(&x)` exposes. -/
def encodeLE : Nat → Nat → List Byte
  | 0, _ => []
  | w + 1, n => n % 256 :: encodeLE w (n / 256)

/-- The unsigned integer whose object representation is the given bytes. -/
def decodeLE : List Byte → Nat
  | [] => 0
  | b :: bs => b % 256 + 256 * decodeLE bs

/-- How an operation of the source can fail to return. -/
inductive Error where
  /-- The `LookupError` raised through `OPENVDB_THROW`. -/
  | lookupError
  /-- An `assert` that fails in a build without `NDEBUG`. -/
  | assertionFailed
  /-- Dereferencing an empty handle or a null pointer. -/
  | nullDereference
  /-- The malformed-stream error of the attribute store. -/
  | ioError
  deriving DecidableEq, Repr

/-- A `std::ostream` in binary mode: the bytes written so far. -/
abbrev OStream := List Byte

/-- A `std::istream` in binary mode: the bytes not yet consumed and the fail bit. -/
structure IStream where
  data : List Byte
  failbit : Bool
  deriving DecidableEq, Repr

/-- The call `is.read(buf, n)`, where `buf` holds `n` bytes beforehand.  A
stream that has already failed extracts nothing.  Otherwise `n` bytes are
extracted; when fewer are left, those are stored at the start of `buf` and the
fail bit is set.  No exception is raised either way. -/
def IStream.read (is : IStream) (buf : List Byte) (n : Nat) : List Byte × IStream :=
  if is.failbit then (buf, is)
  else if n ≤ is.data.length then
    (is.data.take n, { data := is.data.drop n, failbit := false })
  else
    (is.data ++ buf.drop is.data.length, { data := [], failbit := true })

/-- Dereference of a pointer that may be null. -/
def deref {α : Type} : Option α → Except Error α
  | some a => pure a
  | none => throw Error.nullDereference

/-! ## The attribute store (modelled from the specification) -/

/-- Modelled from the spec: the attribute-array collaborator of
`openvdb/points/AttributeArray.h`, which is not among the sources.  An array
has an element count, a per-element stride, a transient flag, and the storage
of its values, which this layer only ever moves through paged buffers. -/
structure AttributeArray where
  mSize : Index
  mStride : Index
  mTransient : Bool
  mData : List Byte
  deriving DecidableEq, Repr

/-- Modelled from the spec: `AttributeArray::size()`, the element count. -/
def AttributeArray.size (a : AttributeArray) : Index := a.mSize

/-- Modelled from the spec: `AttributeArray::stride()`, the per-element stride. -/
def AttributeArray.stride (a : AttributeArray) : Index := a.mStride

/-- Modelled from the spec: `AttributeSet::Descriptor` of
`openvdb/points/AttributeSet.h`, which is not among the sources: the schema of
a store, that is the names and types of its attributes, in order. -/
structure Descriptor where
  mEntries : List (Name × NamePair)
  deriving DecidableEq, Repr

/-- Modelled from the spec: `AttributeSet` of `openvdb/points/AttributeSet.h`,
which is not among the sources: a descriptor and one array per attribute. -/
structure AttributeSet where
  mDescr : Descriptor
  mAttrs : List AttributeArray
  deriving DecidableEq, Repr

/-- Modelled from the spec: `AttributeSet::INVALID_POS`, the position that
`find` reports for a name the store does not hold. -/
def INVALID_POS : Nat := 2 ^ 64 - 1

/-- Modelled from the spec: name of the mandatory position attribute. -/
def positionName : Name := [80]

/-- The attribute name "index". -/
def indexName : Name := [105, 110, 100, 101, 120]

/-- Modelled from the spec: `TypedAttributeArray<Vec3f>::attributeType()`, the
type of a 3-component floating point attribute ("vec3s", "null"). -/
def vec3fAttributeType : NamePair := ([118, 101, 99, 51, 115], [110, 117, 108, 108])

/-- Modelled from the spec: `IndexArray::attributeType()`, the type of a signed
integer attribute ("int32", "null"). -/
def indexArrayAttributeType : NamePair := ([105, 110, 116, 51, 50], [110, 117, 108, 108])

/-- Modelled from the spec: `Descriptor::create(positionType)`, a descriptor
declaring the position attribute alone. -/
def Descriptor.create (positionType : NamePair) : Descriptor :=
  { mEntries := [(positionName, positionType)] }

/-- Modelled from the spec: the constructor `AttributeSet(descr, size)`: one
array of `size` elements per attribute of the descriptor. -/
def AttributeSet.new (descr : Descriptor) (arrayLength : Index) : AttributeSet :=
  { mDescr := descr
    mAttrs := descr.mEntries.map fun _ =>
      { mSize := arrayLength, mStride := 1, mTransient := false, mData := [] } }

/-- Modelled from the spec: the element count shared by the arrays of a store. -/
def AttributeSet.arrayLength (s : AttributeSet) : Index :=
  match s.mAttrs with
  | [] => 0
  | a :: _ => a.mSize

/-- Modelled from the spec: `appendAttribute(name, type, strideOrCount)`: a new
attribute at the end, as long as the others, with the given stride. -/
def AttributeSet.appendAttribute (s : AttributeSet) (name : Name) (type : NamePair)
    (stride : Index) : AttributeSet :=
  { mDescr := { mEntries := s.mDescr.mEntries ++ [(name, type)] }
    mAttrs := s.mAttrs ++
      [{ mSize := s.arrayLength, mStride := stride, mTransient := false, mData := [] }] }

/-- Modelled from the spec: `AttributeSet::size()`, the attribute count. -/
def AttributeSet.size (s : AttributeSet) : Nat := s.mAttrs.length

/-- Modelled from the spec: `AttributeSet::find(name)`: the position of the
attribute of that name, or `INVALID_POS`. -/
def AttributeSet.find (s : AttributeSet) (name : Name) : Nat :=
  match s.mDescr.mEntries.findIdx? (fun e => decide (e.1 = name)) with
  | some pos => pos
  | none => INVALID_POS

/-- Modelled from the spec: `AttributeSet::getConst(pos)`: the array at a
position, or null. -/
def AttributeSet.getConst (s : AttributeSet) (pos : Nat) : Option AttributeArray :=
  s.mAttrs[pos]?

/-- Modelled from the spec: `AttributeSet::operator==`, equality by value,
attribute by attribute in descriptor order. -/
def AttributeSet.operatorEq (a b : AttributeSet) : Bool := decide (a = b)

/-- Modelled from the spec: how the attribute store reads `n` bytes: a short
read is a malformed-stream error. -/
def IStream.readExact (is : IStream) (n : Nat) : Except Error (List Byte × IStream) :=
  let r := is.read (List.replicate n 0) n
  if r.2.failbit then throw Error.ioError else pure r

/-- Modelled from the spec: the attribute store reads a 4-byte unsigned integer. -/
def IStream.readU32 (is : IStream) : Except Error (Nat × IStream) := do
  let (bytes, is) ← is.readExact 4
  pure (decodeLE bytes, is)

/-- Modelled from the spec: a name on the stream, its length in 4 bytes first. -/
def writeName (n : Name) : List Byte := encodeLE 4 n.length ++ n

/-- Modelled from the spec: reading a name written by `writeName`. -/
def readName (is : IStream) : Except Error (Name × IStream) := do
  let (len, is) ← is.readU32
  is.readExact len

/-- Modelled from the spec: one descriptor entry on the stream: the name of the
attribute and the two names of its type. -/
def writeEntry (e : Name × NamePair) : List Byte :=
  writeName e.1 ++ (writeName e.2.1 ++ writeName e.2.2)

/-- Modelled from the spec: the descriptor entries on the stream, in order. -/
def writeEntries : List (Name × NamePair) → List Byte
  | [] => []
  | e :: es => writeEntry e ++ writeEntries es

/-- Modelled from the spec: reading one descriptor entry. -/
def readEntry (is : IStream) : Except Error ((Name × NamePair) × IStream) := do
  let (name, is) ← readName is
  let (valueType, is) ← readName is
  let (codec, is) ← readName is
  pure ((name, (valueType, codec)), is)

/-- Modelled from the spec: reading `count` descriptor entries. -/
def readEntries : Nat → IStream → Except Error (List (Name × NamePair) × IStream)
  | 0, is => pure ([], is)
  | count + 1, is => do
    let (e, is) ← readEntry is
    let (es, is) ← readEntries count is
    pure (e :: es, is)

/-- Modelled from the spec: the entries of the attributes that are written:
all of them when `transient` is set, the persistent ones otherwise. -/
def AttributeSet.writtenEntries (s : AttributeSet) (transient : Bool) :
    List (Name × NamePair) :=
  ((s.mDescr.mEntries.zip s.mAttrs).filter fun ea => transient || !ea.2.mTransient).map
    Prod.fst

/-- Modelled from the spec: the arrays that are written: all of them when
`transient` is set, the persistent ones otherwise. -/
def AttributeSet.writtenArrays (s : AttributeSet) (transient : Bool) : List AttributeArray :=
  s.mAttrs.filter fun a => transient || !a.mTransient

/-- Modelled from the spec: `writeDescriptor(os, transient)`: the number of
written attributes in 4 bytes, then their descriptor entries. -/
def AttributeSet.writeDescriptor (s : AttributeSet) (os : OStream) (transient : Bool) :
    OStream :=
  os ++ (encodeLE 4 (s.writtenEntries transient).length ++
    writeEntries (s.writtenEntries transient))

/-- Modelled from the spec: `readDescriptor(is)`: the descriptor of the store
is replaced by the one on the stream. -/
def AttributeSet.readDescriptor (s : AttributeSet) (is : IStream) :
    Except Error (AttributeSet × IStream) := do
  let (count, is) ← is.readU32
  let (es, is) ← readEntries count is
  pure ({ s with mDescr := { mEntries := es } }, is)

/-- Modelled from the spec: the metadata of the arrays on the stream: element
count and stride of each, 4 bytes each. -/
def writeArraysMetadata : List AttributeArray → List Byte
  | [] => []
  | a :: as => encodeLE 4 a.mSize ++ (encodeLE 4 a.mStride ++ writeArraysMetadata as)

/-- Modelled from the spec: `writeMetadata(os, transient, paged)`: the metadata
of the written arrays, in store order.  There is one metadata encoding, so
`paged` does not change the bytes. -/
def AttributeSet.writeMetadata (s : AttributeSet) (os : OStream) (transient : Bool)
    (_paged : Bool) : OStream :=
  os ++ writeArraysMetadata (s.writtenArrays transient)

/-- Modelled from the spec: reading the metadata of `count` arrays; the arrays
are persistent and hold no values yet. -/
def readArraysMetadata : Nat → IStream → Except Error (List AttributeArray × IStream)
  | 0, is => pure ([], is)
  | count + 1, is => do
    let (size, is) ← is.readU32
    let (stride, is) ← is.readU32
    let (as, is) ← readArraysMetadata count is
    pure ({ mSize := size, mStride := stride, mTransient := false, mData := [] } :: as, is)

/-- Modelled from the spec: `readMetadata(is)`: the arrays of the store are
rebuilt, one per entry of its descriptor, from the metadata on the stream. -/
def AttributeSet.readMetadata (s : AttributeSet) (is : IStream) :
    Except Error (AttributeSet × IStream) := do
  let (as, is) ← readArraysMetadata s.mDescr.mEntries.length is
  pure ({ s with mAttrs := as }, is)

/-- Modelled from the spec: `compression::PagedOutputStream`: the bound output
stream, the size-only mode, and the page being filled, if any.  The storage of
one array is one page and compression is the identity. -/
structure PagedOutputStream where
  mOs : OStream
  mSizeOnly : Bool
  mPage : Option (List Byte)
  deriving DecidableEq, Repr

/-- Modelled from the spec: a default-constructed `PagedOutputStream`. -/
def PagedOutputStream.new : PagedOutputStream :=
  { mOs := [], mSizeOnly := false, mPage := none }

/-- Modelled from the spec: `setOutputStream(os)`, the stream binding. -/
def PagedOutputStream.setOutputStream (ps : PagedOutputStream) (os : OStream) :
    PagedOutputStream :=
  { ps with mOs := os }

/-- Modelled from the spec: `setSizeOnly(b)`, the size-only mode toggle. -/
def PagedOutputStream.setSizeOnly (ps : PagedOutputStream) (b : Bool) : PagedOutputStream :=
  { ps with mSizeOnly := b }

/-- Modelled from the spec: `flush()`: in size-only mode the size header of the
page being filled is emitted, in 4 bytes, without payload bytes; otherwise the
payload of the page is emitted. -/
def PagedOutputStream.flush (ps : PagedOutputStream) : PagedOutputStream :=
  match ps.mPage with
  | none => ps
  | some page =>
    { ps with
      mOs := ps.mOs ++ (if ps.mSizeOnly then encodeLE 4 page.length else page)
      mPage := none }

/-- Modelled from the spec: `writePagedBuffers(pagedStream, outputTransient)`:
the storage of the array goes into the page being filled, unless the array is
transient and transient arrays are not output. -/
def AttributeArray.writePagedBuffers (a : AttributeArray) (ps : PagedOutputStream)
    (outputTransient : Bool) : PagedOutputStream :=
  if a.mTransient && !outputTransient then ps
  else { ps with mPage := some ((ps.mPage.getD []) ++ a.mData) }

/-- Modelled from the spec: `compression::PagedInputStream`: the bound input
stream, the size-only mode, and the page layout established so far: the sizes
of the pages whose payload has not been read yet. -/
structure PagedInputStream where
  mIs : IStream
  mSizeOnly : Bool
  mPages : List Nat
  deriving DecidableEq, Repr

/-- Modelled from the spec: a default-constructed `PagedInputStream`. -/
def PagedInputStream.new : PagedInputStream :=
  { mIs := { data := [], failbit := false }, mSizeOnly := false, mPages := [] }

/-- Modelled from the spec: `setInputStream(is)`, the stream binding. -/
def PagedInputStream.setInputStream (ps : PagedInputStream) (is : IStream) :
    PagedInputStream :=
  { ps with mIs := is }

/-- Modelled from the spec: `setSizeOnly(b)`, the size-only mode toggle. -/
def PagedInputStream.setSizeOnly (ps : PagedInputStream) (b : Bool) : PagedInputStream :=
  { ps with mSizeOnly := b }

/-- Modelled from the spec: `readPagedBuffers(pagedStream)`: in size-only mode
the size header of the page of the array is read and added to the page layout;
otherwise the payload of the oldest page of the layout is read into the
storage of the array. -/
def AttributeArray.readPagedBuffers (a : AttributeArray) (ps : PagedInputStream) :
    Except Error (AttributeArray × PagedInputStream) :=
  if ps.mSizeOnly then do
    let (len, is) ← ps.mIs.readU32
    pure (a, { ps with mIs := is, mPages := ps.mPages ++ [len] })
  else
    match ps.mPages with
    | [] => throw Error.ioError
    | len :: pages => do
      let (bytes, is) ← ps.mIs.readExact len
      pure ({ a with mData := bytes }, { ps with mIs := is, mPages := pages })

/-! ## Primitive -/

/-- A primitive owns one attribute store through a `std::unique_ptr`, which is
null in a primitive that has been moved from. -/
structure Primitive where
  mAttributeSet : Option AttributeSet
  deriving DecidableEq, Repr

/-- The constructor `Primitive(size, vertices)`. -/
def Primitive.new (size vertices : Index) : Primitive :=
  let positionType := vec3fAttributeType
  let descr := Descriptor.create positionType
  let set := AttributeSet.new descr size
  { mAttributeSet := some (set.appendAttribute indexName indexArrayAttributeType vertices) }

/-- The const overload `attributeArray(const Name&) const`. -/
def Primitive.attributeArrayConst (p : Primitive) (attributeName : Name) :
    Except Error AttributeArray := do
  let set ← deref p.mAttributeSet
  let pos := set.find attributeName
  if pos = INVALID_POS then throw Error.lookupError
  deref (set.getConst pos)

/-- The member `constAttributeArray(const Name&) const`. -/
def Primitive.constAttributeArray (p : Primitive) (attributeName : Name) :
    Except Error AttributeArray :=
  p.attributeArrayConst attributeName

/-- Modelled from the spec: `AttributeSet::get(pos)`: the array at a position,
or null; the mutable counterpart of `getConst`. -/
def AttributeSet.get (s : AttributeSet) (pos : Nat) : Option AttributeArray :=
  s.mAttrs[pos]?

/-- The mutable overload `attributeArray(const size_t pos)`: the result, and
the primitive afterwards. -/
def Primitive.attributeArrayAt (p : Primitive) (pos : Nat) :
    Except Error AttributeArray × Primitive :=
  ((do
    let set ← deref p.mAttributeSet
    if pos ≥ set.size then throw Error.lookupError
    deref (set.get pos)), p)

/-- The const overload `attributeArray(const size_t pos) const`. -/
def Primitive.attributeArrayAtConst (p : Primitive) (pos : Nat) :
    Except Error AttributeArray := do
  let set ← deref p.mAttributeSet
  if pos ≥ set.size then throw Error.lookupError
  deref (set.getConst pos)

/-- The member `constAttributeArray(const size_t pos) const`. -/
def Primitive.constAttributeArrayAt (p : Primitive) (pos : Nat) :
    Except Error AttributeArray :=
  p.attributeArrayAtConst pos

/-- The mutable overload `attributeArray(const Name&)`: the result, and the
primitive afterwards. -/
def Primitive.attributeArray (p : Primitive) (attributeName : Name) :
    Except Error AttributeArray × Primitive :=
  ((do
    let set ← deref p.mAttributeSet
    let pos := set.find attributeName
    if pos = INVALID_POS then throw Error.lookupError
    deref (set.get pos)), p)

/-- The member `Primitive::size()`. -/
def Primitive.size (p : Primitive) : Except Error Index := do
  let array ← p.constAttributeArray indexName
  pure array.size

/-- The member `Primitive::vertices()`. -/
def Primitive.vertices (p : Primitive) : Except Error Index := do
  let array ← p.constAttributeArray indexName
  pure array.stride

/-- The member `Primitive::operator==`. -/
def Primitive.operatorEq (p other : Primitive) : Bool :=
  match p.mAttributeSet, other.mAttributeSet with
  | some a, some b => a.operatorEq b
  | _, _ => false

/-- The member `Primitive::operator!=`. -/
def Primitive.operatorNe (p other : Primitive) : Bool := !p.operatorEq other

/-- One of the two loops of `Primitive::write`: every array of the store, in
store order, is written to the paged stream, which is flushed after each. -/
def Primitive.writeBuffers : List AttributeArray → PagedOutputStream → PagedOutputStream
  | [], ps => ps
  | array :: arrays, ps =>
    Primitive.writeBuffers arrays (array.writePagedBuffers ps false).flush

/-- The member `Primitive::write(os)`; the result is the stream afterwards. -/
def Primitive.write (p : Primitive) (os : OStream) : Except Error OStream := do
  let set ← deref p.mAttributeSet
  let os := set.writeDescriptor os false
  let os := set.writeMetadata os false true
  let pagedStream := PagedOutputStream.new.setOutputStream os
  let pagedStream := pagedStream.setSizeOnly true
  let pagedStream := Primitive.writeBuffers set.mAttrs pagedStream
  let pagedStream := pagedStream.setSizeOnly false
  let pagedStream := Primitive.writeBuffers set.mAttrs pagedStream
  pure pagedStream.mOs

/-- One of the two loops of `Primitive::read`: every array of the store, in
store order, reads from the paged stream. -/
def Primitive.readBuffers :
    List AttributeArray → PagedInputStream → Except Error (List AttributeArray × PagedInputStream)
  | [], ps => pure ([], ps)
  | array :: arrays, ps => do
    let (array, ps) ← array.readPagedBuffers ps
    let (arrays, ps) ← Primitive.readBuffers arrays ps
    pure (array :: arrays, ps)

/-- The member `Primitive::read(is)`; the result is the primitive and the
stream afterwards. -/
def Primitive.read (p : Primitive) (is : IStream) : Except Error (Primitive × IStream) := do
  let set ← deref p.mAttributeSet
  let (set, is) ← set.readDescriptor is
  let (set, is) ← set.readMetadata is
  let pagedStream := PagedInputStream.new.setInputStream is
  let pagedStream := pagedStream.setSizeOnly true
  let (arrays, pagedStream) ← Primitive.readBuffers set.mAttrs pagedStream
  let set := { set with mAttrs := arrays }
  let pagedStream := pagedStream.setSizeOnly false
  let (arrays, pagedStream) ← Primitive.readBuffers set.mAttrs pagedStream
  let set := { set with mAttrs := arrays }
  pure ({ mAttributeSet := some set }, pagedStream.mIs)

/-! ## AttributeTopology -/

/-- A `Primitive::Ptr`: empty, or the address of a primitive on the heap. -/
abbrev Ptr := Option Nat

/-- The primitives that handles point to, by address. -/
abbrev Heap := List Primitive

/-- The primitive a handle points to; an empty handle cannot be dereferenced. -/
def Heap.get (h : Heap) (ptr : Ptr) : Except Error Primitive :=
  match ptr with
  | none => throw Error.nullDereference
  | some a => deref h[a]?

/-- The expression `Primitive::Ptr(new Primitive(...))`: the primitive is put at a fresh address. -/
def Heap.alloc (h : Heap) (p : Primitive) : Heap × Ptr := (h ++ [p], some h.length)

/-- Assignment through a handle. -/
def Heap.put (h : Heap) (ptr : Ptr) (p : Primitive) : Heap :=
  match ptr with
  | none => h
  | some a => h.set a p

/-- An `AttributeTopology` holds a `std::vector<Primitive::Ptr>`. -/
structure AttributeTopology where
  mPrimitives : List Ptr
  deriving DecidableEq, Repr

/-- The default constructor. -/
def AttributeTopology.new : AttributeTopology := { mPrimitives := [] }

/-- The copy constructor. -/
def AttributeTopology.copy (rhs : AttributeTopology) : AttributeTopology :=
  { mPrimitives := rhs.mPrimitives }

/-- The member `empty()`. -/
def AttributeTopology.empty (t : AttributeTopology) : Bool := t.mPrimitives.isEmpty

/-- The member `size()`: the length of the vector, converted to `Index`. -/
def AttributeTopology.size (t : AttributeTopology) : Index :=
  t.mPrimitives.length % UINT32_RANGE

/-- The member `addPrimitive(primitive)`. -/
def AttributeTopology.addPrimitive (t : AttributeTopology) (primitive : Ptr) :
    AttributeTopology :=
  { mPrimitives := t.mPrimitives ++ [primitive] }

/-- The member `primitive(i)`. -/
def AttributeTopology.primitive (t : AttributeTopology) (i : Index) : Ptr :=
  if h : i < t.mPrimitives.length then t.mPrimitives[i] else none

/-- The const overload of `primitive(i)`. -/
def AttributeTopology.primitiveConst (t : AttributeTopology) (i : Index) : Ptr :=
  if h : i < t.mPrimitives.length then t.mPrimitives[i] else none

/-- The loop of `AttributeTopology::operator==` over the positions still to compare. -/
def AttributeTopology.operatorEqLoop (h : Heap) (t other : AttributeTopology) :
    List Index → Except Error Bool
  | [] => pure true
  | i :: rest => do
    let p ← h.get (t.primitiveConst i)
    let q ← h.get (other.primitiveConst i)
    if p.operatorNe q then pure false
    else AttributeTopology.operatorEqLoop h t other rest

/-- The member `AttributeTopology::operator==`. -/
def AttributeTopology.operatorEq (h : Heap) (t other : AttributeTopology) :
    Except Error Bool :=
  if t.size ≠ other.size then pure false
  else AttributeTopology.operatorEqLoop h t other (List.range t.size)

/-- The member `AttributeTopology::operator!=`. -/
def AttributeTopology.operatorNe (h : Heap) (t other : AttributeTopology) :
    Except Error Bool := do
  let r ← t.operatorEq h other
  pure !r

/-- The first loop of `AttributeTopology::write`: one 6-byte header per
primitive.  With `ndebug` the `assert` is compiled out. -/
def AttributeTopology.writeHeaders (ndebug : Bool) (h : Heap) :
    List Ptr → OStream → Except Error OStream
  | [], os => pure os
  | primitive :: rest, os => do
    let p ← h.get primitive
    let v ← p.vertices
    let vertices := v % UINT16_RANGE
    if !ndebug && !decide (vertices > 0) then throw Error.assertionFailed
    let s ← p.size
    let size := s % UINT32_RANGE
    let os := os ++ encodeLE 2 vertices
    let os := os ++ encodeLE 4 size
    AttributeTopology.writeHeaders ndebug h rest os

/-- The second loop of `AttributeTopology::write`: the payload of every primitive. -/
def AttributeTopology.writePayloads (h : Heap) : List Ptr → OStream → Except Error OStream
  | [], os => pure os
  | primitive :: rest, os => do
    let p ← h.get primitive
    let os ← p.write os
    AttributeTopology.writePayloads h rest os

/-- The member `AttributeTopology::write(os)`; the result is the stream afterwards. -/
def AttributeTopology.write (ndebug : Bool) (h : Heap) (t : AttributeTopology)
    (os : OStream) : Except Error OStream := do
  let numPrimitives := t.mPrimitives.length % UINT32_RANGE
  let os := os ++ encodeLE 4 numPrimitives
  let os ← AttributeTopology.writeHeaders ndebug h t.mPrimitives os
  AttributeTopology.writePayloads h t.mPrimitives os

/-- The first loop of `AttributeTopology::read`, with the number of headers
still to read: each header is read and a primitive of that shape is put at the
end of the vector. -/
def AttributeTopology.readHeaders (ndebug : Bool) :
    Nat → Heap → List Ptr → IStream → Except Error (Heap × List Ptr × IStream)
  | 0, h, prims, is => pure (h, prims, is)
  | n + 1, h, prims, is => do
    let (bytes, is) := is.read (encodeLE 2 0) 2
    let vertices := decodeLE bytes
    if !ndebug && !decide (vertices > 0) then throw Error.assertionFailed
    let (bytes, is) := is.read (encodeLE 4 0) 4
    let size := decodeLE bytes
    let (h, ptr) := h.alloc (Primitive.new size vertices)
    AttributeTopology.readHeaders ndebug n h (prims ++ [ptr]) is

/-- The second loop of `AttributeTopology::read`: every primitive of the
vector reads its payload, in order. -/
def AttributeTopology.readPayloads :
    List Ptr → Heap → IStream → Except Error (Heap × IStream)
  | [], h, is => pure (h, is)
  | primitive :: rest, h, is => do
    let p ← h.get primitive
    let (p, is) ← p.read is
    AttributeTopology.readPayloads rest (h.put primitive p) is

/-- The member `AttributeTopology::read(is)`; the result is the heap, the
topology and the stream afterwards. -/
def AttributeTopology.read (ndebug : Bool) (h : Heap) (t : AttributeTopology)
    (is : IStream) : Except Error (Heap × AttributeTopology × IStream) := do
  let (bytes, is) := is.read (encodeLE 4 0) 4
  let numPrimitives := decodeLE bytes
  let (h, prims, is) ← AttributeTopology.readHeaders ndebug numPrimitives h t.mPrimitives is
  let (h, is) ← AttributeTopology.readPayloads prims h is
  pure (h, { mPrimitives := prims }, is)

/-- The primitive count is an `Index`: neither `size()` nor the count field of
the stream truncates it. -/
def AttributeTopology.FitsIndex (t : AttributeTopology) : Prop :=
  t.mPrimitives.length < UINT32_RANGE

instance (t : AttributeTopology) : Decidable t.FitsIndex := by
  unfold AttributeTopology.FitsIndex; infer_instance

/-- What the stream encoding of a store relies on: one array per descriptor
entry, no transient array, and every count, length, size and stride within the
4 bytes that hold it on the stream. -/
def AttributeSet.Serializable (s : AttributeSet) : Prop :=
  s.mDescr.mEntries.length = s.mAttrs.length ∧
  s.mAttrs.length < UINT32_RANGE ∧
  (∀ e ∈ s.mDescr.mEntries, e.1.length < UINT32_RANGE ∧
    e.2.1.length < UINT32_RANGE ∧ e.2.2.length < UINT32_RANGE) ∧
  (∀ a ∈ s.mAttrs, a.mSize < UINT32_RANGE ∧ a.mStride < UINT32_RANGE ∧
    a.mTransient = false ∧ a.mData.length < UINT32_RANGE)

instance (s : AttributeSet) : Decidable s.Serializable := by
  unfold AttributeSet.Serializable; infer_instance

/-- A primitive with a valid shape: it holds a serializable attribute store and
its `vertices()` is in 1..65535. -/
def Primitive.ValidShape (p : Primitive) : Prop :=
  (∃ s, p.mAttributeSet = some s ∧ s.Serializable) ∧
  ∃ v, p.vertices = .ok v ∧ 1 ≤ v ∧ v ≤ 65535

/-- The size headers of the pages of the arrays, in order. -/
def pageSizes : List AttributeArray → List Byte
  | [] => []
  | a :: as => encodeLE 4 a.mData.length ++ pageSizes as

/-- The payloads of the pages of the arrays, in order. -/
def pagePayloads : List AttributeArray → List Byte
  | [] => []
  | a :: as => a.mData ++ pagePayloads as

/-- The payload of a primitive that holds the store `s`, when no array of `s`
is transient: descriptor, metadata, page sizes, page payloads. -/
def AttributeSet.payload (s : AttributeSet) : List Byte :=
  (encodeLE 4 s.mDescr.mEntries.length ++ writeEntries s.mDescr.mEntries) ++
    (writeArraysMetadata s.mAttrs ++ (pageSizes s.mAttrs ++ pagePayloads s.mAttrs))


/-- The bytes that one loop of `Primitive::write` emits for the arrays: for
every persistent array its page size in size-only mode, its page otherwise. -/
def pagedBytes (sizeOnly : Bool) : List AttributeArray → List Byte
  | [] => []
  | a :: as =>
    (if a.mTransient then [] else if sizeOnly then encodeLE 4 a.mData.length else a.mData) ++
      pagedBytes sizeOnly as

/-- The bytes that `Primitive::write` emits for a primitive that holds the
store `s`: descriptor, metadata, page sizes, page payloads. -/
def AttributeSet.writtenBytes (s : AttributeSet) : List Byte :=
  (encodeLE 4 (s.writtenEntries false).length ++ writeEntries (s.writtenEntries false)) ++
    (writeArraysMetadata (s.writtenArrays false) ++
      (pagedBytes true s.mAttrs ++ pagedBytes false s.mAttrs))

/-- The 6-byte headers of primitives of the given shapes `(vertices, size)`, in
order: the arity in 2 bytes, then the size in 4 bytes. -/
def headersBytes : List (Nat × Nat) → List Byte
  | [] => []
  | vs :: rest => encodeLE 2 vs.1 ++ (encodeLE 4 vs.2 ++ headersBytes rest)

/-- The heap of `TestAttributeTopology::testTopology`: 10 triangles at
address 0 and 15 quads at address 1. -/
def testHeap : Heap := [Primitive.new 10 3, Primitive.new 15 4]

/-- The topology of `TestAttributeTopology::testTopology`: the triangles, then
the quads. -/
def testTopology : AttributeTopology :=
  (AttributeTopology.new.addPrimitive (some 0)).addPrimitive (some 1)

/-- The attribute store of the triangles of `TestAttributeTopology`: the store
that `Primitive(10, 3)` builds. -/
def testStore : AttributeSet :=
  (AttributeSet.new (Descriptor.create vec3fAttributeType) 10).appendAttribute indexName
    indexArrayAttributeType 3

/-- The handle points, in the heap, to a primitive that holds an attribute
store: a valid, non-null primitive. -/
def Heap.HoldsStore (h : Heap) (ptr : Ptr) : Prop :=
  ∃ q s, h.get ptr = .ok q ∧ q.mAttributeSet = some s

/-- The payload that `Primitive::write` emits for the quads of
`TestAttributeTopology`, the primitive `Primitive(15, 4)`: the descriptor (2
entries: "P" of type "vec3s"/"null", "index" of type "int32"/"null"), the
metadata (15 elements of stride 1, 15 elements of stride 4), and two empty
pages (two sizes 0, no payload bytes). -/
def testQuadsPayload : List Byte :=
  [2, 0, 0, 0,
    1, 0, 0, 0, 80, 5, 0, 0, 0, 118, 101, 99, 51, 115, 4, 0, 0, 0, 110, 117, 108, 108,
    5, 0, 0, 0, 105, 110, 100, 101, 120, 5, 0, 0, 0, 105, 110, 116, 51, 50,
    4, 0, 0, 0, 110, 117, 108, 108,
    15, 0, 0, 0, 1, 0, 0, 0, 15, 0, 0, 0, 4, 0, 0, 0,
    0, 0, 0, 0, 0, 0, 0, 0]

/-- A stream that announces 1 primitive with the header arity 0, size 10,
followed by a payload: the descriptor (2 entries: "P" and "index"), the
metadata (10 elements of stride 1, 10 elements of stride 0), and two empty
pages. -/
def testZeroArityStream : List Byte :=
  [1, 0, 0, 0,
    0, 0, 10, 0, 0, 0,
    2, 0, 0, 0,
    1, 0, 0, 0, 80, 5, 0, 0, 0, 118, 101, 99, 51, 115, 4, 0, 0, 0, 110, 117, 108, 108,
    5, 0, 0, 0, 105, 110, 100, 101, 120, 5, 0, 0, 0, 105, 110, 116, 51, 50,
    4, 0, 0, 0, 110, 117, 108, 108,
    10, 0, 0, 0, 1, 0, 0, 0, 10, 0, 0, 0, 0, 0, 0, 0,
    0, 0, 0, 0, 0, 0, 0, 0]

/-- The heap after assigning, in order, to the primitive behind each handle of
the list a primitive that holds the store paired with the handle. -/
def Heap.putAll (h : Heap) : List (Ptr × AttributeSet) → Heap
  | [] => h
  | x :: rest => Heap.putAll (h.put x.1 { mAttributeSet := some x.2 }) rest

/-- The attribute store of the quads of `TestAttributeTopology`: the store
that `Primitive(15, 4)` builds. -/
def testQuadsStore : AttributeSet :=
  (AttributeSet.new (Descriptor.create vec3fAttributeType) 15).appendAttribute indexName
    indexArrayAttributeType 4

/-! ## Theorems -/

theorem primitive_new_constAttributeArray (size vertices : Index) :
    (Primitive.new size vertices).constAttributeArray indexName =
      .ok { mSize := size, mStride := vertices, mTransient := false, mData := [] } := by
  rfl

/-- C2: a primitive freshly constructed as `Primitive(size, vertices)` with
`vertices > 0` reports `size() == size` and `vertices() == vertices`, both read
from its "index" attribute: the element count and the stride of that array. -/
theorem primitive_new_size_vertices (size vertices : Index) (hv : 0 < vertices) :
    (Primitive.new size vertices).size = .ok size ∧
    (Primitive.new size vertices).vertices = .ok vertices ∧
    ∃ array, (Primitive.new size vertices).constAttributeArray indexName = .ok array ∧
      array.size = size ∧ array.stride = vertices ∧
      (Primitive.new size vertices).size = .ok array.size ∧
      (Primitive.new size vertices).vertices = .ok array.stride := by
  have _ := hv
  exact ⟨rfl, rfl, _, primitive_new_constAttributeArray size vertices, rfl, rfl, rfl, rfl⟩

theorem primitive_new_size_vertices_witness :
    (Primitive.new 10 3).size = .ok 10 ∧
    (Primitive.new 10 3).vertices = .ok 3 ∧
    ∃ array, (Primitive.new 10 3).constAttributeArray indexName = .ok array ∧
      array.size = 10 ∧ array.stride = 3 ∧
      (Primitive.new 10 3).size = .ok array.size ∧
      (Primitive.new 10 3).vertices = .ok array.stride :=
  primitive_new_size_vertices 10 3 (by decide)

theorem size_of_fitsIndex (t : AttributeTopology) (hfit : t.FitsIndex) :
    t.size = t.mPrimitives.length := by
  unfold AttributeTopology.size
  exact Nat.mod_eq_of_lt hfit

theorem primitiveConst_eq_primitive (t : AttributeTopology) (i : Index) :
    t.primitiveConst i = t.primitive i := rfl

theorem primitive_of_lt (t : AttributeTopology) (i : Index) (hi : i < t.mPrimitives.length) :
    t.mPrimitives[i]? = some (t.primitive i) := by
  simp [AttributeTopology.primitive, hi]

theorem primitive_of_ge (t : AttributeTopology) (i : Index) (hi : t.mPrimitives.length ≤ i) :
    t.primitive i = none := by
  simp [AttributeTopology.primitive, Nat.not_lt.mpr hi]

/-- C9: `primitive(i)` never raises (it is a total function that returns a
handle): on a topology whose primitive count is an `Index`, for every
`i < size()` it returns the handle stored at position `i`, and for every
`i >= size()` it returns the empty handle; the mutable and the const overload
agree. -/
theorem primitive_in_range_or_null (t : AttributeTopology) (i : Index) (hfit : t.FitsIndex) :
    (i < t.size →
      t.mPrimitives[i]? = some (t.primitive i) ∧
      t.mPrimitives[i]? = some (t.primitiveConst i)) ∧
    (t.size ≤ i → t.primitive i = none ∧ t.primitiveConst i = none) := by
  rw [size_of_fitsIndex t hfit, primitiveConst_eq_primitive]
  exact ⟨fun hi => ⟨primitive_of_lt t i hi, primitive_of_lt t i hi⟩,
    fun hi => ⟨primitive_of_ge t i hi, primitive_of_ge t i hi⟩⟩

theorem primitive_in_range_or_null_witness :
    ((1 : Nat) < (AttributeTopology.mk [some 0, none, some 0]).size →
      (AttributeTopology.mk [some 0, none, some 0]).mPrimitives[1]? =
        some ((AttributeTopology.mk [some 0, none, some 0]).primitive 1) ∧
      (AttributeTopology.mk [some 0, none, some 0]).mPrimitives[1]? =
        some ((AttributeTopology.mk [some 0, none, some 0]).primitiveConst 1)) ∧
    ((AttributeTopology.mk [some 0, none, some 0]).size ≤ 1 →
      (AttributeTopology.mk [some 0, none, some 0]).primitive 1 = none ∧
      (AttributeTopology.mk [some 0, none, some 0]).primitiveConst 1 = none) :=
  primitive_in_range_or_null (AttributeTopology.mk [some 0, none, some 0]) 1 (by decide)

/-- C10: `addPrimitive` appends at the end and changes nothing else: when the
new primitive count is an `Index`, after `addPrimitive(p)` on a topology of
size `n` the size is `n + 1`, `empty()` is false, `primitive(n)` is `p`, and
`primitive(i)` for every `i < n` is the handle it was before.  The handle is
not inspected, so any handle can be appended: a topology can hold a primitive
of 3 vertices next to one of 4 vertices. -/
theorem addPrimitive_appends (t : AttributeTopology) (p : Ptr)
    (hfit : (t.addPrimitive p).FitsIndex) :
    (t.addPrimitive p).size = t.size + 1 ∧
    (t.addPrimitive p).empty = false ∧
    (t.addPrimitive p).primitive t.size = p ∧
    (∀ i, i < t.size → (t.addPrimitive p).primitive i = t.primitive i) ∧
    (t.addPrimitive p).mPrimitives = t.mPrimitives ++ [p] ∧
    (((AttributeTopology.new.addPrimitive (some 0)).addPrimitive (some 1)).size = 2 ∧
      (Heap.get [Primitive.new 10 3, Primitive.new 15 4]
        (((AttributeTopology.new.addPrimitive (some 0)).addPrimitive (some 1)).primitive 0)).bind
          Primitive.vertices = .ok 3 ∧
      (Heap.get [Primitive.new 10 3, Primitive.new 15 4]
        (((AttributeTopology.new.addPrimitive (some 0)).addPrimitive (some 1)).primitive 1)).bind
          Primitive.vertices = .ok 4) := by
  have hlen : t.mPrimitives.length + 1 < UINT32_RANGE := by
    simpa [AttributeTopology.FitsIndex, AttributeTopology.addPrimitive] using hfit
  have hfit' : t.FitsIndex := Nat.lt_of_succ_lt hlen
  rw [size_of_fitsIndex _ hfit, size_of_fitsIndex _ hfit']
  refine ⟨by simp [AttributeTopology.addPrimitive], ?_, ?_, ?_, rfl, rfl, rfl, rfl⟩
  · simp [AttributeTopology.addPrimitive, AttributeTopology.empty]
  · simp [AttributeTopology.addPrimitive, AttributeTopology.primitive]
  · intro i hi
    have hi' : i < t.mPrimitives.length + 1 := Nat.lt_succ_of_lt hi
    simp [AttributeTopology.addPrimitive, AttributeTopology.primitive, hi, hi',
      List.getElem_append_left]

theorem addPrimitive_appends_witness :
    ((AttributeTopology.mk [some 0]).addPrimitive (some 1)).size =
      (AttributeTopology.mk [some 0]).size + 1 ∧
    ((AttributeTopology.mk [some 0]).addPrimitive (some 1)).empty = false ∧
    ((AttributeTopology.mk [some 0]).addPrimitive (some 1)).primitive
      (AttributeTopology.mk [some 0]).size = some 1 ∧
    (∀ i, i < (AttributeTopology.mk [some 0]).size →
      ((AttributeTopology.mk [some 0]).addPrimitive (some 1)).primitive i =
        (AttributeTopology.mk [some 0]).primitive i) ∧
    ((AttributeTopology.mk [some 0]).addPrimitive (some 1)).mPrimitives =
      (AttributeTopology.mk [some 0]).mPrimitives ++ [some 1] ∧
    (((AttributeTopology.new.addPrimitive (some 0)).addPrimitive (some 1)).size = 2 ∧
      (Heap.get [Primitive.new 10 3, Primitive.new 15 4]
        (((AttributeTopology.new.addPrimitive (some 0)).addPrimitive (some 1)).primitive 0)).bind
          Primitive.vertices = .ok 3 ∧
      (Heap.get [Primitive.new 10 3, Primitive.new 15 4]
        (((AttributeTopology.new.addPrimitive (some 0)).addPrimitive (some 1)).primitive 1)).bind
          Primitive.vertices = .ok 4) :=
  addPrimitive_appends (AttributeTopology.mk [some 0]) (some 1) (by decide)

/-! ### Equality -/

theorem heap_get_error (h : Heap) (ptr : Ptr) (e : Error) (he : h.get ptr = .error e) :
    e = Error.nullDereference := by
  cases ptr with
  | none => simpa [Heap.get, throw, throwThe, MonadExceptOf.throw] using he.symm
  | some a =>
    cases hq : h[a]? with
    | none => simpa [Heap.get, hq, deref, throw, throwThe, MonadExceptOf.throw] using he.symm
    | some q => simp [Heap.get, hq, deref, pure, Except.pure] at he

theorem primitive_operatorEq_comm (p q : Primitive) : p.operatorEq q = q.operatorEq p := by
  cases p with
  | mk sp =>
    cases q with
    | mk sq =>
      cases sp <;> cases sq <;> simp [Primitive.operatorEq, AttributeSet.operatorEq, eq_comm]

theorem primitive_operatorEq_self (p : Primitive) (s : AttributeSet)
    (hs : p.mAttributeSet = some s) : p.operatorEq p = true := by
  simp [Primitive.operatorEq, hs, AttributeSet.operatorEq]

theorem operatorEqLoop_eq_true_iff (h : Heap) (a b : AttributeTopology) (l : List Index) :
    AttributeTopology.operatorEqLoop h a b l = .ok true ↔
      ∀ i ∈ l, ∃ p q, h.get (a.primitiveConst i) = .ok p ∧
        h.get (b.primitiveConst i) = .ok q ∧ p.operatorEq q = true := by
  induction l with
  | nil => simp [AttributeTopology.operatorEqLoop, pure, Except.pure]
  | cons i rest ih =>
    simp only [AttributeTopology.operatorEqLoop, List.forall_mem_cons]
    cases hp : h.get (a.primitiveConst i) with
    | error e => simp [bind, Except.bind]
    | ok p =>
      cases hq : h.get (b.primitiveConst i) with
      | error e => simp [bind, Except.bind]
      | ok q =>
        simp only [bind, Except.bind]
        cases hne : p.operatorEq q with
        | true => simp [Primitive.operatorNe, hne, ih]
        | false => simp [Primitive.operatorNe, hne, pure, Except.pure]

theorem operatorEqLoop_total (h : Heap) (a b : AttributeTopology) (l : List Index)
    (hv : ∀ i ∈ l, (∃ p, h.get (a.primitiveConst i) = .ok p) ∧
      ∃ q, h.get (b.primitiveConst i) = .ok q) :
    ∃ r, AttributeTopology.operatorEqLoop h a b l = .ok r := by
  induction l with
  | nil => exact ⟨true, rfl⟩
  | cons i rest ih =>
    obtain ⟨⟨p, hp⟩, q, hq⟩ := hv i (List.mem_cons_self i rest)
    have ih' := ih fun j hj => hv j (List.mem_cons_of_mem i hj)
    simp only [AttributeTopology.operatorEqLoop, hp, hq, bind, Except.bind]
    cases hne : p.operatorNe q with
    | true => exact ⟨false, by simp [pure, Except.pure]⟩
    | false => simpa using ih'

theorem operatorEqLoop_comm (h : Heap) (a b : AttributeTopology) (l : List Index) :
    AttributeTopology.operatorEqLoop h a b l = AttributeTopology.operatorEqLoop h b a l := by
  induction l with
  | nil => rfl
  | cons i rest ih =>
    simp only [AttributeTopology.operatorEqLoop]
    cases hp : h.get (a.primitiveConst i) with
    | error e =>
      cases hq : h.get (b.primitiveConst i) with
      | error e' =>
        rw [heap_get_error _ _ _ hp, heap_get_error _ _ _ hq]
        rfl
      | ok q =>
        rw [heap_get_error _ _ _ hp]
        rfl
    | ok p =>
      cases hq : h.get (b.primitiveConst i) with
      | error e' => rfl
      | ok q =>
        simp only [bind, Except.bind, Primitive.operatorNe, primitive_operatorEq_comm q p, ih]

theorem operatorEq_ok_true_iff (h : Heap) (a b : AttributeTopology) :
    a.operatorEq h b = .ok true ↔
      a.size = b.size ∧
      ∀ i, i < a.size → ∃ p q, h.get (a.primitiveConst i) = .ok p ∧
        h.get (b.primitiveConst i) = .ok q ∧ p.operatorEq q = true := by
  unfold AttributeTopology.operatorEq
  by_cases hsz : a.size = b.size
  · rw [if_neg (not_not.mpr hsz), operatorEqLoop_eq_true_iff]
    constructor
    · intro hall
      exact ⟨hsz, fun i hi => hall i (List.mem_range.mpr hi)⟩
    · rintro ⟨_, hall⟩ i hi
      exact hall i (List.mem_range.mp hi)
  · rw [if_pos hsz]
    simp [hsz, pure, Except.pure]

theorem operatorEq_returns (h : Heap) (a b : AttributeTopology)
    (hv : ∀ i, i < a.size → (∃ p, h.get (a.primitiveConst i) = .ok p) ∧
      ∃ q, h.get (b.primitiveConst i) = .ok q) :
    ∃ r, a.operatorEq h b = .ok r := by
  unfold AttributeTopology.operatorEq
  by_cases hsz : a.size = b.size
  · rw [if_neg (not_not.mpr hsz)]
    exact operatorEqLoop_total h a b (List.range a.size)
      (fun i hi => hv i (List.mem_range.mp hi))
  · rw [if_pos hsz]
    exact ⟨false, rfl⟩

/-- C6: `AttributeTopology::operator==` returns true if and only if the two
topologies have the same primitive count (`size()`) and, for every position
`i` below that count, the primitives at position `i` are equal under
`Primitive::operator==`.  It returns a result whenever every handle below the
count points to a primitive. -/
theorem operatorEq_true_iff (h : Heap) (a b : AttributeTopology) :
    (a.operatorEq h b = .ok true ↔
      a.size = b.size ∧
      ∀ i, i < a.size → ∃ p q, h.get (a.primitiveConst i) = .ok p ∧
        h.get (b.primitiveConst i) = .ok q ∧ p.operatorEq q = true) ∧
    ((∀ i, i < a.size → (∃ p, h.get (a.primitiveConst i) = .ok p) ∧
        ∃ q, h.get (b.primitiveConst i) = .ok q) →
      ∃ r, a.operatorEq h b = .ok r) :=
  ⟨operatorEq_ok_true_iff h a b, operatorEq_returns h a b⟩

theorem operatorEq_true_iff_witness :
    ((AttributeTopology.mk [some 0, some 1]).operatorEq
        [Primitive.new 10 3, Primitive.new 15 4, Primitive.new 10 3]
        (AttributeTopology.mk [some 2, some 1]) = .ok true ↔
      (AttributeTopology.mk [some 0, some 1]).size = (AttributeTopology.mk [some 2, some 1]).size ∧
      ∀ i, i < (AttributeTopology.mk [some 0, some 1]).size →
        ∃ p q, Heap.get [Primitive.new 10 3, Primitive.new 15 4, Primitive.new 10 3]
            ((AttributeTopology.mk [some 0, some 1]).primitiveConst i) = .ok p ∧
          Heap.get [Primitive.new 10 3, Primitive.new 15 4, Primitive.new 10 3]
            ((AttributeTopology.mk [some 2, some 1]).primitiveConst i) = .ok q ∧
          p.operatorEq q = true) ∧
    (AttributeTopology.mk [some 0, some 1]).operatorEq
        [Primitive.new 10 3, Primitive.new 15 4, Primitive.new 10 3]
        (AttributeTopology.mk [some 2, some 1]) = .ok true :=
  ⟨(operatorEq_true_iff [Primitive.new 10 3, Primitive.new 15 4, Primitive.new 10 3]
      (AttributeTopology.mk [some 0, some 1]) (AttributeTopology.mk [some 2, some 1])).1, rfl⟩

theorem operatorEq_comm (h : Heap) (a b : AttributeTopology) :
    a.operatorEq h b = b.operatorEq h a := by
  unfold AttributeTopology.operatorEq
  by_cases hsz : a.size = b.size
  · rw [if_neg (not_not.mpr hsz), if_neg (not_not.mpr hsz.symm), hsz]
    exact operatorEqLoop_comm h a b _
  · rw [if_pos hsz, if_pos (Ne.symm hsz)]

/-- C7, counterexample: a topology whose only primitive holds no attribute
store is not equal to itself. -/
theorem operatorEq_not_reflexive :
    (AttributeTopology.mk [some 0]).operatorEq [Primitive.mk none]
      (AttributeTopology.mk [some 0]) = .ok false := by
  rfl

/-- C7, amended: `AttributeTopology` equality is symmetric for every two
topologies `a` and `b` (`a == b` and `b == a` give the same result), and it is
reflexive for every topology `t` whose handles below `size()` all point to a
primitive that holds an attribute store. -/
theorem operatorEq_refl_symm (h : Heap) (t a b : AttributeTopology)
    (hstore : ∀ i, i < t.size →
      ∃ p s, h.get (t.primitiveConst i) = .ok p ∧ p.mAttributeSet = some s) :
    t.operatorEq h t = .ok true ∧
    a.operatorEq h b = b.operatorEq h a ∧
    (a.operatorEq h b = .ok true ↔ b.operatorEq h a = .ok true) := by
  refine ⟨?_, operatorEq_comm h a b, by rw [operatorEq_comm h a b]⟩
  rw [operatorEq_ok_true_iff h t t]
  refine ⟨rfl, fun i hi => ?_⟩
  obtain ⟨p, s, hp, hs⟩ := hstore i hi
  exact ⟨p, p, hp, hp, primitive_operatorEq_self p s hs⟩

theorem operatorEq_refl_symm_witness :
    (AttributeTopology.mk [some 0, some 1]).operatorEq [Primitive.new 10 3, Primitive.new 15 4]
        (AttributeTopology.mk [some 0, some 1]) = .ok true ∧
    (AttributeTopology.mk [some 0]).operatorEq [Primitive.new 10 3, Primitive.new 15 4]
        (AttributeTopology.mk [some 1]) =
      (AttributeTopology.mk [some 1]).operatorEq [Primitive.new 10 3, Primitive.new 15 4]
        (AttributeTopology.mk [some 0]) ∧
    ((AttributeTopology.mk [some 0]).operatorEq [Primitive.new 10 3, Primitive.new 15 4]
        (AttributeTopology.mk [some 1]) = .ok true ↔
      (AttributeTopology.mk [some 1]).operatorEq [Primitive.new 10 3, Primitive.new 15 4]
        (AttributeTopology.mk [some 0]) = .ok true) :=
  operatorEq_refl_symm [Primitive.new 10 3, Primitive.new 15 4]
    (AttributeTopology.mk [some 0, some 1]) (AttributeTopology.mk [some 0])
    (AttributeTopology.mk [some 1])
    (fun i hi => by
      have hi2 : i < 2 := hi
      match i, hi2 with
      | 0, _ => exact ⟨_, _, rfl, rfl⟩
      | 1, _ => exact ⟨_, _, rfl, rfl⟩)

/-- C8: `AttributeTopology` equality is order-sensitive: for every two
primitives `p` and `q` that are distinct under `Primitive::operator!=`, the
topology built by appending `p` then `q` is not equal to the topology built by
appending `q` then `p`, although both hold the same handles up to order. -/
theorem operatorEq_order_sensitive (h : Heap) (hp hq : Ptr) (p q : Primitive)
    (hgp : h.get hp = .ok p) (hgq : h.get hq = .ok q) (hne : p.operatorNe q = true) :
    ((AttributeTopology.new.addPrimitive hp).addPrimitive hq).operatorEq h
        ((AttributeTopology.new.addPrimitive hq).addPrimitive hp) = .ok false ∧
    ((AttributeTopology.new.addPrimitive hp).addPrimitive hq).operatorNe h
        ((AttributeTopology.new.addPrimitive hq).addPrimitive hp) = .ok true ∧
    List.Perm ((AttributeTopology.new.addPrimitive hp).addPrimitive hq).mPrimitives
      ((AttributeTopology.new.addPrimitive hq).addPrimitive hp).mPrimitives := by
  have heq : ((AttributeTopology.new.addPrimitive hp).addPrimitive hq).operatorEq h
      ((AttributeTopology.new.addPrimitive hq).addPrimitive hp) = .ok false := by
    have hsz : ((AttributeTopology.new.addPrimitive hp).addPrimitive hq).size = 2 := rfl
    have hsz' : ((AttributeTopology.new.addPrimitive hq).addPrimitive hp).size = 2 := rfl
    have h0 : ((AttributeTopology.new.addPrimitive hp).addPrimitive hq).primitiveConst 0 = hp :=
      rfl
    have h0' : ((AttributeTopology.new.addPrimitive hq).addPrimitive hp).primitiveConst 0 = hq :=
      rfl
    unfold AttributeTopology.operatorEq
    rw [hsz, hsz', if_neg (by simp)]
    have hr : List.range 2 = [0, 1] := rfl
    rw [hr]
    simp only [AttributeTopology.operatorEqLoop, h0, h0', hgp, hgq, bind, Except.bind, hne,
      if_true, pure, Except.pure]
  refine ⟨heq, ?_, ?_⟩
  · simp [AttributeTopology.operatorNe, heq, bind, Except.bind, pure, Except.pure]
  · exact List.Perm.swap hq hp []

theorem operatorEq_order_sensitive_witness :
    ((AttributeTopology.new.addPrimitive (some 0)).addPrimitive (some 1)).operatorEq
        [Primitive.new 10 3, Primitive.new 15 4]
        ((AttributeTopology.new.addPrimitive (some 1)).addPrimitive (some 0)) = .ok false ∧
    ((AttributeTopology.new.addPrimitive (some 0)).addPrimitive (some 1)).operatorNe
        [Primitive.new 10 3, Primitive.new 15 4]
        ((AttributeTopology.new.addPrimitive (some 1)).addPrimitive (some 0)) = .ok true ∧
    List.Perm ((AttributeTopology.new.addPrimitive (some 0)).addPrimitive (some 1)).mPrimitives
      ((AttributeTopology.new.addPrimitive (some 1)).addPrimitive (some 0)).mPrimitives :=
  operatorEq_order_sensitive [Primitive.new 10 3, Primitive.new 15 4] (some 0) (some 1)
    (Primitive.new 10 3) (Primitive.new 15 4) rfl rfl (by decide)

/-! ### The empty topology -/

theorem eq_new_of_empty (t : AttributeTopology) (ht : t.empty = true) :
    t = AttributeTopology.new := by
  cases t with
  | mk prims =>
    cases prims with
    | nil => rfl
    | cons p ps => simp [AttributeTopology.empty] at ht

/-- C5: an empty topology serializes to exactly 4 bytes that encode the count
zero, with no header and no payload, and reading those 4 bytes into a fresh
topology gives a topology for which `empty()` is true and `size()` is 0, and
which is equal to the original. -/
theorem empty_topology_round_trip (ndebug : Bool) (h : Heap) (t : AttributeTopology)
    (ht : t.empty = true) :
    t.write ndebug h [] = .ok [0, 0, 0, 0] ∧
    [0, 0, 0, 0] = encodeLE 4 0 ∧
    ∃ t', AttributeTopology.new.read ndebug h { data := [0, 0, 0, 0], failbit := false } =
        .ok (h, t', { data := [], failbit := false }) ∧
      t'.empty = true ∧ t'.size = 0 ∧ t.operatorEq h t' = .ok true := by
  rw [eq_new_of_empty t ht]
  exact ⟨rfl, rfl, AttributeTopology.new, rfl, rfl, rfl, rfl⟩

theorem empty_topology_round_trip_witness :
    AttributeTopology.new.write false [] [] = .ok [0, 0, 0, 0] ∧
    [0, 0, 0, 0] = encodeLE 4 0 ∧
    ∃ t', AttributeTopology.new.read false [] { data := [0, 0, 0, 0], failbit := false } =
        .ok ([], t', { data := [], failbit := false }) ∧
      t'.empty = true ∧ t'.size = 0 ∧ AttributeTopology.new.operatorEq [] t' = .ok true :=
  empty_topology_round_trip false [] AttributeTopology.new rfl

/-! ### Bytes and streams -/

theorem encodeLE_length (w n : Nat) : (encodeLE w n).length = w := by
  induction w generalizing n with
  | zero => rfl
  | succ w ih => simp [encodeLE, ih]

theorem decodeLE_encodeLE_two (n : Nat) : decodeLE (encodeLE 2 n) = n % UINT16_RANGE := by
  simp only [encodeLE, decodeLE, UINT16_RANGE]
  omega

theorem decodeLE_encodeLE_four (n : Nat) : decodeLE (encodeLE 4 n) = n % UINT32_RANGE := by
  simp only [encodeLE, decodeLE, UINT32_RANGE]
  omega

theorem istream_read_append (a rest buf : List Byte) (n : Nat) (hn : a.length = n) :
    IStream.read { data := a ++ rest, failbit := false } buf n =
      (a, { data := rest, failbit := false }) := by
  subst hn
  simp [IStream.read]

theorem readExact_append (a rest : List Byte) (n : Nat) (hn : a.length = n) :
    IStream.readExact { data := a ++ rest, failbit := false } n =
      .ok (a, { data := rest, failbit := false }) := by
  simp [IStream.readExact, istream_read_append a rest _ n hn, pure, Except.pure]

theorem readU32_append (n : Nat) (rest : List Byte) (hn : n < UINT32_RANGE) :
    IStream.readU32 { data := encodeLE 4 n ++ rest, failbit := false } =
      .ok (n, { data := rest, failbit := false }) := by
  simp only [IStream.readU32, readExact_append _ rest 4 (encodeLE_length 4 n), bind, Except.bind,
    pure, Except.pure, decodeLE_encodeLE_four, Nat.mod_eq_of_lt hn]

theorem readName_append (name : Name) (rest : List Byte) (hn : name.length < UINT32_RANGE) :
    readName { data := writeName name ++ rest, failbit := false } =
      .ok (name, { data := rest, failbit := false }) := by
  simp only [readName, writeName, List.append_assoc, readU32_append _ _ hn, bind, Except.bind,
    readExact_append name rest _ rfl]

theorem readEntry_append (e : Name × NamePair) (rest : List Byte)
    (he : e.1.length < UINT32_RANGE ∧ e.2.1.length < UINT32_RANGE ∧
      e.2.2.length < UINT32_RANGE) :
    readEntry { data := writeEntry e ++ rest, failbit := false } =
      .ok (e, { data := rest, failbit := false }) := by
  simp only [readEntry, writeEntry, List.append_assoc, readName_append _ _ he.1,
    readName_append _ _ he.2.1, readName_append _ _ he.2.2, bind, Except.bind, pure, Except.pure]

theorem readEntries_append (es : List (Name × NamePair)) (rest : List Byte)
    (hes : ∀ e ∈ es, e.1.length < UINT32_RANGE ∧ e.2.1.length < UINT32_RANGE ∧
      e.2.2.length < UINT32_RANGE) :
    readEntries es.length { data := writeEntries es ++ rest, failbit := false } =
      .ok (es, { data := rest, failbit := false }) := by
  induction es with
  | nil => rfl
  | cons e es ih =>
    have he := hes e (List.mem_cons_self e es)
    have ih' := ih fun x hx => hes x (List.mem_cons_of_mem e hx)
    simp only [List.length_cons, readEntries, writeEntries, List.append_assoc,
      readEntry_append _ _ he, ih', bind, Except.bind, pure, Except.pure]

/-! ### The payload of a primitive -/

theorem writtenArrays_eq (s : AttributeSet) (hs : s.Serializable) :
    s.writtenArrays false = s.mAttrs := by
  unfold AttributeSet.writtenArrays
  rw [List.filter_eq_self]
  intro a ha
  simp [(hs.2.2.2 a ha).2.2.1]

theorem writtenEntries_eq (s : AttributeSet) (hs : s.Serializable) :
    s.writtenEntries false = s.mDescr.mEntries := by
  unfold AttributeSet.writtenEntries
  have hfilter : (s.mDescr.mEntries.zip s.mAttrs).filter
      (fun ea => false || !ea.2.mTransient) = s.mDescr.mEntries.zip s.mAttrs := by
    rw [List.filter_eq_self]
    intro ea hea
    have ha : ea.2 ∈ s.mAttrs := (List.of_mem_zip hea).2
    simp [(hs.2.2.2 ea.2 ha).2.2.1]
  rw [hfilter]
  exact List.map_fst_zip _ _ (le_of_eq hs.1)

theorem readArraysMetadata_append (as : List AttributeArray) (rest : List Byte)
    (has : ∀ a ∈ as, a.mSize < UINT32_RANGE ∧ a.mStride < UINT32_RANGE) :
    readArraysMetadata as.length { data := writeArraysMetadata as ++ rest, failbit := false } =
      .ok (as.map (fun a => { a with mTransient := false, mData := [] }),
        { data := rest, failbit := false }) := by
  induction as with
  | nil => rfl
  | cons a as ih =>
    have ha := has a (List.mem_cons_self a as)
    have ih' := ih fun x hx => has x (List.mem_cons_of_mem a hx)
    simp only [List.length_cons, readArraysMetadata, writeArraysMetadata, List.append_assoc,
      readU32_append _ _ ha.1, readU32_append _ _ ha.2, ih', bind, Except.bind, pure,
      Except.pure, List.map_cons]

theorem readBuffers_sizes (as : List AttributeArray) (rest : List Byte) (pages : List Nat)
    (has : ∀ a ∈ as, a.mData.length < UINT32_RANGE) :
    Primitive.readBuffers (as.map (fun a => { a with mTransient := false, mData := [] }))
        { mIs := { data := pageSizes as ++ rest, failbit := false }, mSizeOnly := true,
          mPages := pages } =
      .ok (as.map (fun a => { a with mTransient := false, mData := [] }),
        { mIs := { data := rest, failbit := false }, mSizeOnly := true,
          mPages := pages ++ as.map (fun a => a.mData.length) }) := by
  induction as generalizing pages with
  | nil => simp [Primitive.readBuffers, pageSizes, pure, Except.pure]
  | cons a as ih =>
    have ha := has a (List.mem_cons_self a as)
    have ih' := ih (pages ++ [a.mData.length]) fun x hx => has x (List.mem_cons_of_mem a hx)
    simp only [List.map_cons, Primitive.readBuffers, AttributeArray.readPagedBuffers, pageSizes,
      List.append_assoc, if_true, readU32_append _ _ ha, bind, Except.bind, pure, Except.pure,
      ih', List.singleton_append]

theorem readBuffers_payloads (as : List AttributeArray) (rest : List Byte) (pages : List Nat)
    (has : ∀ a ∈ as, a.mTransient = false) :
    Primitive.readBuffers (as.map (fun a => { a with mTransient := false, mData := [] }))
        { mIs := { data := pagePayloads as ++ rest, failbit := false }, mSizeOnly := false,
          mPages := as.map (fun a => a.mData.length) ++ pages } =
      .ok (as,
        { mIs := { data := rest, failbit := false }, mSizeOnly := false, mPages := pages }) := by
  induction as with
  | nil => simp [Primitive.readBuffers, pagePayloads, pure, Except.pure]
  | cons a as ih =>
    have ha := has a (List.mem_cons_self a as)
    have ih' := ih fun x hx => has x (List.mem_cons_of_mem a hx)
    have hrec : AttributeArray.mk a.mSize a.mStride false a.mData = a := by
      cases a
      simp_all
    simp only [List.map_cons, Primitive.readBuffers, AttributeArray.readPagedBuffers,
      pagePayloads, List.append_assoc, List.cons_append, Bool.false_eq_true, if_false,
      readExact_append a.mData _ _ rfl, bind, Except.bind, pure, Except.pure, ih', hrec]

theorem writeBuffers_sizes (as : List AttributeArray) (os : OStream)
    (has : ∀ a ∈ as, a.mTransient = false) :
    Primitive.writeBuffers as { mOs := os, mSizeOnly := true, mPage := none } =
      { mOs := os ++ pageSizes as, mSizeOnly := true, mPage := none } := by
  induction as generalizing os with
  | nil => simp [Primitive.writeBuffers, pageSizes]
  | cons a as ih =>
    have ha := has a (List.mem_cons_self a as)
    have ih' := fun os' => ih os' fun x hx => has x (List.mem_cons_of_mem a hx)
    simp [Primitive.writeBuffers, AttributeArray.writePagedBuffers, PagedOutputStream.flush, ha,
      pageSizes, ih']

theorem writeBuffers_payloads (as : List AttributeArray) (os : OStream)
    (has : ∀ a ∈ as, a.mTransient = false) :
    Primitive.writeBuffers as { mOs := os, mSizeOnly := false, mPage := none } =
      { mOs := os ++ pagePayloads as, mSizeOnly := false, mPage := none } := by
  induction as generalizing os with
  | nil => simp [Primitive.writeBuffers, pagePayloads]
  | cons a as ih =>
    have ha := has a (List.mem_cons_self a as)
    have ih' := fun os' => ih os' fun x hx => has x (List.mem_cons_of_mem a hx)
    simp [Primitive.writeBuffers, AttributeArray.writePagedBuffers, PagedOutputStream.flush, ha,
      pagePayloads, ih']

theorem primitive_write_eq (p : Primitive) (s : AttributeSet) (os : OStream)
    (hp : p.mAttributeSet = some s) (hs : s.Serializable) :
    p.write os = .ok (os ++ s.payload) := by
  have hno : ∀ a ∈ s.mAttrs, a.mTransient = false := fun a ha => (hs.2.2.2 a ha).2.2.1
  simp only [Primitive.write, hp, deref, bind, Except.bind, pure, Except.pure,
    AttributeSet.writeDescriptor, AttributeSet.writeMetadata, writtenEntries_eq s hs,
    writtenArrays_eq s hs, PagedOutputStream.new, PagedOutputStream.setOutputStream,
    PagedOutputStream.setSizeOnly, writeBuffers_sizes _ _ hno, writeBuffers_payloads _ _ hno,
    AttributeSet.payload, List.append_assoc]

theorem primitive_read_payload (p : Primitive) (s0 s : AttributeSet) (rest : List Byte)
    (hp : p.mAttributeSet = some s0) (hs : s.Serializable) :
    p.read { data := s.payload ++ rest, failbit := false } =
      .ok ({ mAttributeSet := some s }, { data := rest, failbit := false }) := by
  have hno : ∀ a ∈ s.mAttrs, a.mTransient = false := fun a ha => (hs.2.2.2 a ha).2.2.1
  have hlen : s.mDescr.mEntries.length < UINT32_RANGE := hs.1 ▸ hs.2.1
  have hmeta : ∀ a ∈ s.mAttrs, a.mSize < UINT32_RANGE ∧ a.mStride < UINT32_RANGE :=
    fun a ha => ⟨(hs.2.2.2 a ha).1, (hs.2.2.2 a ha).2.1⟩
  have hdata : ∀ a ∈ s.mAttrs, a.mData.length < UINT32_RANGE :=
    fun a ha => (hs.2.2.2 a ha).2.2.2
  have hpay := readBuffers_payloads s.mAttrs rest [] hno
  rw [List.append_nil] at hpay
  have hsizes := readBuffers_sizes s.mAttrs (pagePayloads s.mAttrs ++ rest) [] hdata
  rw [List.nil_append] at hsizes
  have hmd := readArraysMetadata_append s.mAttrs
    (pageSizes s.mAttrs ++ (pagePayloads s.mAttrs ++ rest)) hmeta
  rw [← hs.1] at hmd
  simp only [Primitive.read, hp, deref, bind, Except.bind, pure, Except.pure,
    AttributeSet.payload, List.append_assoc, AttributeSet.readDescriptor,
    readU32_append _ _ hlen, readEntries_append _ _ hs.2.2.1, AttributeSet.readMetadata, hmd,
    PagedInputStream.new, PagedInputStream.setInputStream, PagedInputStream.setSizeOnly,
    hsizes, hpay]

/-! ### The layout of a written topology -/

theorem encodeLE_two_mod (v : Nat) : encodeLE 2 (v % UINT16_RANGE) = encodeLE 2 v := by
  have h0 : v % 2 ^ 16 % 256 = v % 256 := by omega
  have h1 : v % 2 ^ 16 / 256 % 256 = v / 256 % 256 := by omega
  simp only [encodeLE, UINT16_RANGE, h0, h1]

theorem encodeLE_four_mod (n : Nat) : encodeLE 4 (n % UINT32_RANGE) = encodeLE 4 n := by
  have h0 : n % 2 ^ 32 % 256 = n % 256 := by omega
  have h1 : n % 2 ^ 32 / 256 % 256 = n / 256 % 256 := by omega
  have h2 : n % 2 ^ 32 / 256 / 256 % 256 = n / 256 / 256 % 256 := by omega
  have h3 : n % 2 ^ 32 / 256 / 256 / 256 % 256 = n / 256 / 256 / 256 % 256 := by omega
  simp only [encodeLE, UINT32_RANGE, h0, h1, h2, h3]

theorem writeBuffers_general (as : List AttributeArray) (os : OStream) (sizeOnly : Bool) :
    Primitive.writeBuffers as { mOs := os, mSizeOnly := sizeOnly, mPage := none } =
      { mOs := os ++ pagedBytes sizeOnly as, mSizeOnly := sizeOnly, mPage := none } := by
  induction as generalizing os with
  | nil => simp [Primitive.writeBuffers, pagedBytes]
  | cons a as ih =>
    cases ht : a.mTransient <;> cases sizeOnly <;>
      simp [Primitive.writeBuffers, AttributeArray.writePagedBuffers, PagedOutputStream.flush,
        pagedBytes, ht, ih]

theorem primitive_write_general (p : Primitive) (s : AttributeSet) (os : OStream)
    (hp : p.mAttributeSet = some s) :
    p.write os = .ok (os ++ s.writtenBytes) := by
  simp only [Primitive.write, hp, deref, bind, Except.bind, pure, Except.pure,
    AttributeSet.writeDescriptor, AttributeSet.writeMetadata, PagedOutputStream.new,
    PagedOutputStream.setOutputStream, PagedOutputStream.setSizeOnly, writeBuffers_general,
    AttributeSet.writtenBytes, List.append_assoc]

theorem store_of_vertices_ok (p : Primitive) (v : Index) (hv : p.vertices = .ok v) :
    ∃ s, p.mAttributeSet = some s := by
  cases hs : p.mAttributeSet with
  | some s => exact ⟨s, rfl⟩
  | none =>
    simp [Primitive.vertices, Primitive.constAttributeArray, Primitive.attributeArrayConst, hs,
      deref, bind, Except.bind, throw, throwThe, MonadExceptOf.throw] at hv

theorem headersBytes_length (shapes : List (Nat × Nat)) :
    (headersBytes shapes).length = 6 * shapes.length := by
  induction shapes with
  | nil => rfl
  | cons vs rest ih =>
    simp only [headersBytes, List.length_append, encodeLE_length, ih, List.length_cons]
    omega

theorem headersBytes_slice (shapes : List (Nat × Nat)) (i : Nat) (vs : Nat × Nat)
    (hi : shapes[i]? = some vs) :
    ((headersBytes shapes).drop (6 * i)).take 6 = encodeLE 2 vs.1 ++ encodeLE 4 vs.2 := by
  induction shapes generalizing i with
  | nil => simp at hi
  | cons x rest ih =>
    cases i with
    | zero =>
      simp only [List.getElem?_cons_zero, Option.some.injEq] at hi
      subst hi
      have hlen : (encodeLE 2 x.1 ++ encodeLE 4 x.2).length = 6 := by
        simp [encodeLE_length]
      simp only [headersBytes, Nat.mul_zero, List.drop_zero, ← List.append_assoc]
      rw [List.take_append_of_le_length (le_of_eq hlen.symm), List.take_of_length_le
        (le_of_eq hlen)]
    | succ j =>
      simp only [List.getElem?_cons_succ] at hi
      have hlen : (encodeLE 2 x.1 ++ encodeLE 4 x.2).length = 6 := by
        simp [encodeLE_length]
      have hsplit : 6 * (j + 1) = (encodeLE 2 x.1 ++ encodeLE 4 x.2).length + 6 * j := by
        rw [hlen]; omega
      simp only [headersBytes, ← List.append_assoc]
      rw [hsplit, List.drop_append]
      exact ih j hi

theorem writeHeaders_eq (ndebug : Bool) (h : Heap) (prims : List Ptr)
    (shapes : List (Nat × Nat)) (os : OStream)
    (hshapes : List.Forall₂ (fun ptr vs => ∃ p, h.get ptr = .ok p ∧ p.vertices = .ok vs.1 ∧
      p.size = .ok vs.2 ∧ (ndebug = true ∨ 0 < vs.1 % UINT16_RANGE)) prims shapes) :
    AttributeTopology.writeHeaders ndebug h prims os = .ok (os ++ headersBytes shapes) := by
  induction hshapes generalizing os with
  | nil => simp [AttributeTopology.writeHeaders, headersBytes, pure, Except.pure]
  | @cons ptr vs prims shapes hhead _ ih =>
    obtain ⟨p, hp, hv, hsz, hassert⟩ := hhead
    have hcond : (!ndebug && !decide (vs.1 % UINT16_RANGE > 0)) = false := by
      rcases hassert with hnd | hpos
      · simp [hnd]
      · simp [hpos]
    simp only [AttributeTopology.writeHeaders, hp, hv, hsz, bind, Except.bind, hcond,
      Bool.false_eq_true, if_false, encodeLE_two_mod, encodeLE_four_mod, ih, headersBytes,
      List.append_assoc, pure, Except.pure]

theorem writePayloads_eq (h : Heap) (prims : List Ptr) (chunks : List (List Byte))
    (os : OStream)
    (hchunks : List.Forall₂ (fun ptr chunk => ∃ p, h.get ptr = .ok p ∧
      ∀ os, p.write os = .ok (os ++ chunk)) prims chunks) :
    AttributeTopology.writePayloads h prims os = .ok (os ++ chunks.flatten) := by
  induction hchunks generalizing os with
  | nil => simp [AttributeTopology.writePayloads, pure, Except.pure]
  | @cons ptr chunk prims chunks hhead _ ih =>
    obtain ⟨p, hp, hw⟩ := hhead
    simp only [AttributeTopology.writePayloads, hp, hw, bind, Except.bind, ih,
      List.flatten_cons, List.append_assoc]

theorem exists_forall₂_of_forall_mem {α β : Type} (R : α → β → Prop) (l : List α)
    (hl : ∀ a ∈ l, ∃ b, R a b) : ∃ l', List.Forall₂ R l l' := by
  induction l with
  | nil => exact ⟨[], List.Forall₂.nil⟩
  | cons a l ih =>
    obtain ⟨b, hb⟩ := hl a (List.mem_cons_self a l)
    obtain ⟨l', hl'⟩ := ih fun x hx => hl x (List.mem_cons_of_mem a hx)
    exact ⟨b :: l', List.Forall₂.cons hb hl'⟩

theorem size_ok_of_vertices_ok (p : Primitive) (v : Index) (hv : p.vertices = .ok v) :
    ∃ s, p.size = .ok s := by
  unfold Primitive.vertices at hv
  unfold Primitive.size
  cases ha : p.constAttributeArray indexName with
  | error e => simp [ha, bind, Except.bind] at hv
  | ok a => exact ⟨a.size, rfl⟩

/-- C4: the layout of a written topology.  For a topology of `n` primitives,
`n` an `Index`, whose handles point to primitives with an "index" attribute
and an arity that passes the `assert` (or with the `assert` compiled out),
`write` appends to the stream first the 4 bytes of `n`, then `n` headers of 6
bytes in sequence order, the `i`-th being the 2 bytes of `vertices()` of
primitive `i` followed by the 4 bytes of its `size()`, and only then the `n`
payloads in the same order; the payload section starts `4 + 6 * n` bytes after
the start. -/
theorem write_layout (ndebug : Bool) (h : Heap) (t : AttributeTopology) (os : OStream)
    (hfit : t.FitsIndex)
    (hprims : ∀ ptr ∈ t.mPrimitives, ∃ p v, h.get ptr = .ok p ∧ p.vertices = .ok v ∧
      (ndebug = true ∨ 0 < v % UINT16_RANGE)) :
    ∃ (shapes : List (Nat × Nat)) (chunks : List (List Byte)),
      List.Forall₂ (fun ptr vs => ∃ p, h.get ptr = .ok p ∧ p.vertices = .ok vs.1 ∧
        p.size = .ok vs.2) t.mPrimitives shapes ∧
      List.Forall₂ (fun ptr chunk => ∃ p, h.get ptr = .ok p ∧ p.write [] = .ok chunk)
        t.mPrimitives chunks ∧
      t.write ndebug h os =
        .ok (os ++ (encodeLE 4 t.size ++ (headersBytes shapes ++ chunks.flatten))) ∧
      t.size = t.mPrimitives.length ∧
      decodeLE (encodeLE 4 t.size) = t.mPrimitives.length ∧
      (headersBytes shapes).length = 6 * t.mPrimitives.length ∧
      (∀ i vs, shapes[i]? = some vs →
        ((headersBytes shapes).drop (6 * i)).take 6 = encodeLE 2 vs.1 ++ encodeLE 4 vs.2) ∧
      (os ++ (encodeLE 4 t.size ++ headersBytes shapes)).length =
        os.length + (4 + 6 * t.mPrimitives.length) := by
  have hsize := size_of_fitsIndex t hfit
  obtain ⟨shapes, hshapes⟩ := exists_forall₂_of_forall_mem
    (fun ptr (vs : Nat × Nat) => ∃ p, h.get ptr = .ok p ∧ p.vertices = .ok vs.1 ∧
      p.size = .ok vs.2 ∧ (ndebug = true ∨ 0 < vs.1 % UINT16_RANGE)) t.mPrimitives
    (fun ptr hptr => by
      obtain ⟨p, v, hp, hv, hassert⟩ := hprims ptr hptr
      obtain ⟨s, hs⟩ := size_ok_of_vertices_ok p v hv
      exact ⟨(v, s), p, hp, hv, hs, hassert⟩)
  obtain ⟨chunks, hchunks⟩ := exists_forall₂_of_forall_mem
    (fun ptr (chunk : List Byte) => ∃ p, h.get ptr = .ok p ∧
      ∀ os, p.write os = .ok (os ++ chunk)) t.mPrimitives
    (fun ptr hptr => by
      obtain ⟨p, v, hp, hv, _⟩ := hprims ptr hptr
      obtain ⟨s, hs⟩ := store_of_vertices_ok p v hv
      exact ⟨s.writtenBytes, p, hp, fun os => primitive_write_general p s os hs⟩)
  have hlen : shapes.length = t.mPrimitives.length := hshapes.length_eq.symm
  have hhdr := headersBytes_length shapes
  refine ⟨shapes, chunks, ?_, ?_, ?_, hsize, ?_, ?_, ?_, ?_⟩
  · exact hshapes.imp fun _ _ ⟨p, hp, hv, hs, _⟩ => ⟨p, hp, hv, hs⟩
  · exact hchunks.imp fun _ _ ⟨p, hp, hw⟩ => ⟨p, hp, by simpa using hw []⟩
  · simp only [AttributeTopology.write, writeHeaders_eq ndebug h _ shapes _ hshapes,
      writePayloads_eq h _ chunks _ hchunks, bind, Except.bind, List.append_assoc,
      AttributeTopology.size]
  · rw [decodeLE_encodeLE_four, hsize]
    exact Nat.mod_eq_of_lt hfit
  · rw [hhdr, hlen]
  · exact fun i vs hi => headersBytes_slice shapes i vs hi
  · simp only [List.length_append, encodeLE_length, hhdr, hlen]

theorem write_layout_witness :
    ∃ (shapes : List (Nat × Nat)) (chunks : List (List Byte)),
      List.Forall₂ (fun ptr vs => ∃ p, testHeap.get ptr = .ok p ∧ p.vertices = .ok vs.1 ∧
        p.size = .ok vs.2) testTopology.mPrimitives shapes ∧
      List.Forall₂ (fun ptr chunk => ∃ p, testHeap.get ptr = .ok p ∧ p.write [] = .ok chunk)
        testTopology.mPrimitives chunks ∧
      testTopology.write false testHeap [] =
        .ok ([] ++ (encodeLE 4 testTopology.size ++ (headersBytes shapes ++ chunks.flatten))) ∧
      testTopology.size = testTopology.mPrimitives.length ∧
      decodeLE (encodeLE 4 testTopology.size) = testTopology.mPrimitives.length ∧
      (headersBytes shapes).length = 6 * testTopology.mPrimitives.length ∧
      (∀ i vs, shapes[i]? = some vs →
        ((headersBytes shapes).drop (6 * i)).take 6 = encodeLE 2 vs.1 ++ encodeLE 4 vs.2) ∧
      (([] : OStream) ++ (encodeLE 4 testTopology.size ++ headersBytes shapes)).length =
        ([] : OStream).length + (4 + 6 * testTopology.mPrimitives.length) :=
  write_layout false testHeap testTopology [] (by decide) (fun ptr hptr => by
    have hcases : ptr = some 0 ∨ ptr = some 1 := by
      simpa [testTopology, AttributeTopology.addPrimitive, AttributeTopology.new] using hptr
    rcases hcases with rfl | rfl
    · exact ⟨Primitive.new 10 3, 3, rfl, rfl, Or.inr (by decide)⟩
    · exact ⟨Primitive.new 15 4, 4, rfl, rfl, Or.inr (by decide)⟩)

/-! ### Reading back a written topology -/

theorem heap_get_append (h h2 : Heap) (ptr : Ptr) (p : Primitive) (hp : h.get ptr = .ok p) :
    Heap.get (h ++ h2) ptr = .ok p := by
  cases ptr with
  | none => simp [Heap.get, throw, throwThe, MonadExceptOf.throw] at hp
  | some a =>
    cases ha : h[a]? with
    | none => simp [Heap.get, ha, deref, throw, throwThe, MonadExceptOf.throw] at hp
    | some q =>
      have hlt : a < h.length := by
        by_contra hge
        rw [List.getElem?_eq_none (Nat.le_of_not_lt hge)] at ha
        exact Option.noConfusion ha
      simpa [Heap.get, List.getElem?_append_left hlt, ha] using hp

theorem heap_get_append_right (h h2 : Heap) (i : Nat) (p : Primitive) (hp : h2[i]? = some p) :
    Heap.get (h ++ h2) (some (h.length + i)) = .ok p := by
  simp [Heap.get, List.getElem?_append_right, hp, deref, pure, Except.pure]

theorem readHeaders_eq (ndebug : Bool) (shapes : List (Nat × Nat)) (h0 : Heap)
    (acc : List Ptr) (rest : List Byte)
    (hassert : ∀ vs ∈ shapes, ndebug = true ∨ 0 < vs.1 % UINT16_RANGE) :
    AttributeTopology.readHeaders ndebug shapes.length h0 acc
        { data := headersBytes shapes ++ rest, failbit := false } =
      .ok (h0 ++ shapes.map (fun vs => Primitive.new (vs.2 % UINT32_RANGE) (vs.1 % UINT16_RANGE)),
        acc ++ (List.range' h0.length shapes.length).map some,
        { data := rest, failbit := false }) := by
  induction shapes generalizing h0 acc with
  | nil => simp [AttributeTopology.readHeaders, headersBytes, pure, Except.pure]
  | cons vs shapes ih =>
    have hcond : (!ndebug && !decide (vs.1 % UINT16_RANGE > 0)) = false := by
      rcases hassert vs (List.mem_cons_self vs shapes) with hnd | hpos
      · simp [hnd]
      · simp [hpos]
    have ih' := ih (h0 ++ [Primitive.new (vs.2 % UINT32_RANGE) (vs.1 % UINT16_RANGE)])
      (acc ++ [some h0.length]) fun x hx => hassert x (List.mem_cons_of_mem vs hx)
    simp only [List.length_append, List.length_singleton] at ih'
    simp only [List.length_cons, AttributeTopology.readHeaders, headersBytes, List.append_assoc,
      istream_read_append (encodeLE 2 vs.1) _ _ 2 (encodeLE_length 2 vs.1),
      istream_read_append (encodeLE 4 vs.2) _ _ 4 (encodeLE_length 4 vs.2),
      decodeLE_encodeLE_two, decodeLE_encodeLE_four, hcond, Bool.false_eq_true, if_false,
      Heap.alloc, ih', bind, Except.bind, pure, Except.pure, List.map_cons, List.range'_succ,
      List.singleton_append]

theorem readPayloads_eq (stores : List AttributeSet) (A : Heap) (Q : List Primitive)
    (rest : List Byte) (hQ : Q.length = stores.length)
    (hQs : ∀ q ∈ Q, ∃ s0, q.mAttributeSet = some s0)
    (hs : ∀ s ∈ stores, s.Serializable) :
    AttributeTopology.readPayloads ((List.range' A.length stores.length).map some) (A ++ Q)
        { data := (stores.map AttributeSet.payload).flatten ++ rest, failbit := false } =
      .ok (A ++ stores.map (fun s => { mAttributeSet := some s }),
        { data := rest, failbit := false }) := by
  induction stores generalizing A Q with
  | nil =>
    have hnil : Q = [] := List.length_eq_zero.mp hQ
    simp [AttributeTopology.readPayloads, hnil, pure, Except.pure]
  | cons s stores ih =>
    cases Q with
    | nil => simp at hQ
    | cons q Q =>
      obtain ⟨s0, hq⟩ := hQs q (List.mem_cons_self q Q)
      have hlen : Q.length = stores.length := by simpa using hQ
      have ih' := ih (A ++ [{ mAttributeSet := some s }]) Q hlen
        (fun x hx => hQs x (List.mem_cons_of_mem q hx))
        (fun x hx => hs x (List.mem_cons_of_mem s hx))
      simp only [List.length_append, List.length_singleton, List.append_assoc,
        List.singleton_append] at ih'
      have hget : Heap.get (A ++ q :: Q) (some A.length) = .ok q := by
        simpa using heap_get_append_right A (q :: Q) 0 q (by simp)
      have hput : Heap.put (A ++ q :: Q) (some A.length) { mAttributeSet := some s } =
          A ++ { mAttributeSet := some s } :: Q := by
        simp [Heap.put]
      simp only [List.length_cons, List.range'_succ, List.map_cons, List.flatten_cons,
        List.append_assoc, AttributeTopology.readPayloads, hget,
        primitive_read_payload q s0 s _ hq (hs s (List.mem_cons_self s stores)), hput, ih',
        bind, Except.bind]

theorem forall₂_getElem? {α β : Type} {R : α → β → Prop} {l₁ : List α} {l₂ : List β}
    (hR : List.Forall₂ R l₁ l₂) (i : Nat) (a : α) (ha : l₁[i]? = some a) :
    ∃ b, l₂[i]? = some b ∧ R a b := by
  induction hR generalizing i with
  | nil => simp at ha
  | @cons x y l₁ l₂ hxy _ ih =>
    cases i with
    | zero =>
      simp only [List.getElem?_cons_zero, Option.some.injEq] at ha
      exact ⟨y, by simp, ha ▸ hxy⟩
    | succ j =>
      simp only [List.getElem?_cons_succ] at ha
      simpa using ih j ha

theorem primitive_eq_mk (p : Primitive) (s : AttributeSet) (hp : p.mAttributeSet = some s) :
    p = { mAttributeSet := some s } := by
  cases p
  simp_all

theorem size_lt_of_serializable (p : Primitive) (s : AttributeSet) (sz : Index)
    (hp : p.mAttributeSet = some s) (hs : s.Serializable) (hsz : p.size = .ok sz) :
    sz < UINT32_RANGE := by
  cases ha : s.getConst (s.find indexName) with
  | none =>
    by_cases hpos : s.find indexName = INVALID_POS <;>
      simp [Primitive.size, Primitive.constAttributeArray, Primitive.attributeArrayConst, hp,
        deref, bind, Except.bind, pure, Except.pure, ha, hpos, throw, throwThe,
        MonadExceptOf.throw] at hsz
  | some a =>
    have hmem : a ∈ s.mAttrs := List.getElem?_mem ha
    by_cases hpos : s.find indexName = INVALID_POS
    · simp [Primitive.size, Primitive.constAttributeArray, Primitive.attributeArrayConst, hp,
        deref, bind, Except.bind, pure, Except.pure, ha, hpos, throw, throwThe,
        MonadExceptOf.throw] at hsz
    · simp only [Primitive.size, Primitive.constAttributeArray, Primitive.attributeArrayConst,
        hp, deref, bind, Except.bind, pure, Except.pure, ha, hpos, if_false,
        AttributeArray.size, Except.ok.injEq] at hsz
      rw [← hsz]
      exact (hs.2.2.2 a hmem).1

theorem primitive_new_validShape (size vertices : Index) (hsize : size < UINT32_RANGE)
    (hv : 1 ≤ vertices) (hv' : vertices ≤ 65535) : (Primitive.new size vertices).ValidShape := by
  refine ⟨⟨_, rfl, ?_⟩, vertices, rfl, hv, hv'⟩
  have hvlt : vertices < UINT32_RANGE := Nat.lt_of_le_of_lt hv' (by decide)
  refine ⟨rfl, ?_, ?_, ?_⟩
  · show 2 < UINT32_RANGE
    decide
  · intro e he
    have hcases : e = (positionName, vec3fAttributeType) ∨
        e = (indexName, indexArrayAttributeType) := by
      simpa [AttributeSet.appendAttribute, AttributeSet.new, Descriptor.create] using he
    rcases hcases with rfl | rfl <;> decide
  · intro a ha
    have hcases : a = { mSize := size, mStride := 1, mTransient := false, mData := [] } ∨
        a = { mSize := size, mStride := vertices, mTransient := false, mData := [] } := by
      simpa [AttributeSet.appendAttribute, AttributeSet.new, Descriptor.create,
        AttributeSet.arrayLength] using ha
    have hone : (1 : Nat) < UINT32_RANGE := by decide
    have hzero : (0 : Nat) < UINT32_RANGE := by decide
    rcases hcases with rfl | rfl
    · exact ⟨hsize, hone, rfl, hzero⟩
    · exact ⟨hsize, hvlt, rfl, hzero⟩

theorem write_read_core (ndebug : Bool) (h : Heap) (t : AttributeTopology)
    (hfit : t.FitsIndex)
    (hprims : ∀ ptr ∈ t.mPrimitives, ∃ p, h.get ptr = .ok p ∧ p.ValidShape) :
    ∃ items : List (AttributeSet × Nat × Nat),
      List.Forall₂ (fun ptr it => h.get ptr = .ok { mAttributeSet := some it.1 } ∧
        it.1.Serializable ∧
        Primitive.vertices { mAttributeSet := some it.1 } = .ok it.2.1 ∧
        Primitive.size { mAttributeSet := some it.1 } = .ok it.2.2 ∧
        1 ≤ it.2.1 ∧ it.2.1 ≤ 65535 ∧ it.2.2 < UINT32_RANGE) t.mPrimitives items ∧
      t.write ndebug h [] =
        .ok (encodeLE 4 t.mPrimitives.length ++ (headersBytes (items.map Prod.snd) ++
          (items.map fun it => it.1.payload).flatten)) ∧
      AttributeTopology.readHeaders ndebug t.mPrimitives.length h []
          { data := headersBytes (items.map Prod.snd) ++
              (items.map fun it => it.1.payload).flatten, failbit := false } =
        .ok (h ++ items.map (fun it => Primitive.new it.2.2 it.2.1),
          (List.range' h.length t.mPrimitives.length).map some,
          { data := (items.map fun it => it.1.payload).flatten, failbit := false }) ∧
      AttributeTopology.new.read ndebug h
          { data := encodeLE 4 t.mPrimitives.length ++ (headersBytes (items.map Prod.snd) ++
              (items.map fun it => it.1.payload).flatten), failbit := false } =
        .ok (h ++ items.map (fun it => { mAttributeSet := some it.1 }),
          { mPrimitives := (List.range' h.length t.mPrimitives.length).map some },
          { data := [], failbit := false }) := by
  obtain ⟨items, hitems⟩ := exists_forall₂_of_forall_mem
    (fun ptr (it : AttributeSet × Nat × Nat) =>
      h.get ptr = .ok { mAttributeSet := some it.1 } ∧ it.1.Serializable ∧
      Primitive.vertices { mAttributeSet := some it.1 } = .ok it.2.1 ∧
      Primitive.size { mAttributeSet := some it.1 } = .ok it.2.2 ∧
      1 ≤ it.2.1 ∧ it.2.1 ≤ 65535 ∧ it.2.2 < UINT32_RANGE) t.mPrimitives
    (fun ptr hptr => by
      obtain ⟨p, hp, ⟨s, hs, hser⟩, v, hv, hv1, hv2⟩ := hprims ptr hptr
      obtain ⟨sz, hsz⟩ := size_ok_of_vertices_ok p v hv
      have hlt := size_lt_of_serializable p s sz hs hser hsz
      have hpe := primitive_eq_mk p s hs
      subst hpe
      exact ⟨(s, v, sz), hp, hser, hv, hsz, hv1, hv2, hlt⟩)
  have hlen : items.length = t.mPrimitives.length := hitems.length_eq.symm
  have hshapes : List.Forall₂ (fun ptr (vs : Nat × Nat) => ∃ p, h.get ptr = .ok p ∧
      p.vertices = .ok vs.1 ∧ p.size = .ok vs.2 ∧
      (ndebug = true ∨ 0 < vs.1 % UINT16_RANGE)) t.mPrimitives (items.map Prod.snd) := by
    rw [List.forall₂_map_right_iff]
    refine hitems.imp fun ptr it ⟨hp, _, hv, hsz, hv1, hv2, _⟩ => ⟨_, hp, hv, hsz, Or.inr ?_⟩
    rw [Nat.mod_eq_of_lt (by unfold UINT16_RANGE; omega)]
    exact hv1
  have hchunks : List.Forall₂ (fun ptr (chunk : List Byte) => ∃ p, h.get ptr = .ok p ∧
      ∀ os, p.write os = .ok (os ++ chunk)) t.mPrimitives
      (items.map fun it => it.1.payload) := by
    rw [List.forall₂_map_right_iff]
    exact hitems.imp fun ptr it ⟨hp, hser, _⟩ =>
      ⟨_, hp, fun os => primitive_write_eq _ it.1 os rfl hser⟩
  have hall : ∀ it ∈ items, it.1.Serializable ∧ 1 ≤ it.2.1 ∧ it.2.1 ≤ 65535 ∧
      it.2.2 < UINT32_RANGE := by
    intro it hit
    obtain ⟨i, hi, hget⟩ := List.getElem_of_mem hit
    have hi' : i < t.mPrimitives.length := hlen ▸ hi
    have hrel := (List.forall₂_iff_get.mp hitems).2 i hi' hi
    simp only [List.get_eq_getElem, hget] at hrel
    exact ⟨hrel.2.1, hrel.2.2.2.2.1, hrel.2.2.2.2.2.1, hrel.2.2.2.2.2.2⟩
  have hfresh : (items.map Prod.snd).map
      (fun vs => Primitive.new (vs.2 % UINT32_RANGE) (vs.1 % UINT16_RANGE)) =
      items.map (fun it => Primitive.new it.2.2 it.2.1) := by
    rw [List.map_map]
    apply List.map_congr_left
    intro it hit
    obtain ⟨_, hv1, hv2, hsz⟩ := hall it hit
    simp only [Function.comp, Nat.mod_eq_of_lt hsz,
      Nat.mod_eq_of_lt (show it.2.1 < UINT16_RANGE by unfold UINT16_RANGE; omega)]
  have hrh := readHeaders_eq ndebug (items.map Prod.snd) h []
    (items.map fun it => it.1.payload).flatten (by
      intro vs hvs
      obtain ⟨it, hit, rfl⟩ := List.mem_map.mp hvs
      obtain ⟨_, hv1, hv2, _⟩ := hall it hit
      right
      rw [Nat.mod_eq_of_lt (by unfold UINT16_RANGE; omega)]
      exact hv1)
  rw [hfresh, List.length_map, hlen, List.nil_append] at hrh
  have hrp := readPayloads_eq (items.map Prod.fst) h
    (items.map (fun it => Primitive.new it.2.2 it.2.1)) [] (by simp)
    (by
      intro q hq
      obtain ⟨it, _, rfl⟩ := List.mem_map.mp hq
      exact ⟨_, rfl⟩)
    (by
      intro s hs
      obtain ⟨it, hit, rfl⟩ := List.mem_map.mp hs
      exact (hall it hit).1)
  simp only [List.length_map, hlen, List.map_map, Function.comp_def, List.append_nil] at hrp
  refine ⟨items, hitems, ?_, hrh, ?_⟩
  · simp only [AttributeTopology.write, writeHeaders_eq ndebug h _ _ _ hshapes,
      writePayloads_eq h _ _ _ hchunks, bind, Except.bind, List.append_assoc, List.nil_append,
      Nat.mod_eq_of_lt hfit]
  · simp only [AttributeTopology.read, AttributeTopology.new,
      istream_read_append (encodeLE 4 t.mPrimitives.length) _ _ 4 (encodeLE_length 4 _),
      decodeLE_encodeLE_four, Nat.mod_eq_of_lt hfit, hrh, hrp, bind, Except.bind, pure,
      Except.pure]

theorem read_back_pointwise (h : Heap) (t : AttributeTopology)
    (items : List (AttributeSet × Nat × Nat))
    (hitems : List.Forall₂ (fun ptr it => h.get ptr = .ok { mAttributeSet := some it.1 } ∧
      it.1.Serializable ∧
      Primitive.vertices { mAttributeSet := some it.1 } = .ok it.2.1 ∧
      Primitive.size { mAttributeSet := some it.1 } = .ok it.2.2 ∧
      1 ≤ it.2.1 ∧ it.2.1 ≤ 65535 ∧ it.2.2 < UINT32_RANGE) t.mPrimitives items)
    (i : Nat) (hi : i < t.mPrimitives.length) :
    ∃ it : AttributeSet × Nat × Nat,
      h.get (t.primitive i) = .ok { mAttributeSet := some it.1 } ∧
      Primitive.vertices { mAttributeSet := some it.1 } = .ok it.2.1 ∧
      Primitive.size { mAttributeSet := some it.1 } = .ok it.2.2 ∧
      Heap.get (h ++ items.map (fun it => { mAttributeSet := some it.1 }))
        (t.primitive i) = .ok { mAttributeSet := some it.1 } ∧
      Heap.get (h ++ items.map (fun it => { mAttributeSet := some it.1 }))
        (AttributeTopology.primitive
          { mPrimitives := (List.range' h.length t.mPrimitives.length).map some } i) =
        .ok { mAttributeSet := some it.1 } ∧
      Heap.get (h ++ items.map (fun it => Primitive.new it.2.2 it.2.1))
        (AttributeTopology.primitive
          { mPrimitives := (List.range' h.length t.mPrimitives.length).map some } i) =
        .ok (Primitive.new it.2.2 it.2.1) := by
  obtain ⟨it, hit, hget, _, hv, hsz, _⟩ :=
    forall₂_getElem? hitems i (t.primitive i) (primitive_of_lt t i hi)
  have hnew : AttributeTopology.primitive
      { mPrimitives := (List.range' h.length t.mPrimitives.length).map some } i =
      some (h.length + i) := by
    simp [AttributeTopology.primitive, hi]
  refine ⟨it, hget, hv, hsz, heap_get_append h _ _ _ hget, ?_, ?_⟩
  · rw [hnew]
    exact heap_get_append_right h _ i _ (by simp [hit])
  · rw [hnew]
    exact heap_get_append_right h _ i _ (by simp [hit])

/-- C1: round trip.  For every topology whose primitive count is an `Index`
and whose handles point to primitives with valid shapes (a serializable
attribute store and `vertices()` in 1..65535), the bytes produced by
`AttributeTopology::write`, given to `AttributeTopology::read` on a freshly
default-constructed topology, are consumed to the end and yield a topology
that compares equal under `operator==` to the original.  The topology need not
be non-empty. -/
theorem write_read_round_trip (ndebug : Bool) (h : Heap) (t : AttributeTopology)
    (hfit : t.FitsIndex)
    (hprims : ∀ ptr ∈ t.mPrimitives, ∃ p, h.get ptr = .ok p ∧ p.ValidShape) :
    ∃ bytes h' t',
      t.write ndebug h [] = .ok bytes ∧
      AttributeTopology.new.read ndebug h { data := bytes, failbit := false } =
        .ok (h', t', { data := [], failbit := false }) ∧
      t.operatorEq h' t' = .ok true ∧
      t'.operatorEq h' t = .ok true := by
  obtain ⟨items, hitems, hwrite, _, hread⟩ := write_read_core ndebug h t hfit hprims
  have heq : t.operatorEq (h ++ items.map (fun it => { mAttributeSet := some it.1 }))
      { mPrimitives := (List.range' h.length t.mPrimitives.length).map some } = .ok true := by
    rw [operatorEq_ok_true_iff]
    refine ⟨by simp [AttributeTopology.size], fun i hi => ?_⟩
    rw [size_of_fitsIndex t hfit] at hi
    obtain ⟨it, _, _, _, hold, hnew, _⟩ := read_back_pointwise h t items hitems i hi
    exact ⟨_, _, hold, hnew, primitive_operatorEq_self _ it.1 rfl⟩
  refine ⟨_, _, _, hwrite, hread, heq, ?_⟩
  rw [operatorEq_comm]
  exact heq

theorem write_read_round_trip_witness :
    ∃ bytes h' t',
      testTopology.write false testHeap [] = .ok bytes ∧
      AttributeTopology.new.read false testHeap { data := bytes, failbit := false } =
        .ok (h', t', { data := [], failbit := false }) ∧
      testTopology.operatorEq h' t' = .ok true ∧
      t'.operatorEq h' testTopology = .ok true :=
  write_read_round_trip false testHeap testTopology (by decide) (fun ptr hptr => by
    have hcases : ptr = some 0 ∨ ptr = some 1 := by
      simpa [testTopology, AttributeTopology.addPrimitive, AttributeTopology.new] using hptr
    rcases hcases with rfl | rfl
    · exact ⟨Primitive.new 10 3, rfl,
        primitive_new_validShape 10 3 (by decide) (by decide) (by decide)⟩
    · exact ⟨Primitive.new 15 4, rfl,
        primitive_new_validShape 15 4 (by decide) (by decide) (by decide)⟩)

/-- C3: shape and order are preserved across serialization.  For every
topology whose primitive count is an `Index` and whose handles point to
primitives with valid shapes, after `write` followed by `read` into a fresh
topology the result has the same number of primitives and, for every position
`i`, the header loop of `read` constructed `primitive(i)` as
`Primitive(size_i, vertices_i)`, and after `read` that primitive reports
`size() == size_i` and `vertices() == vertices_i`, where `size_i` and
`vertices_i` are what the original primitive at position `i` reports. -/
theorem write_read_preserves_shapes (ndebug : Bool) (h : Heap) (t : AttributeTopology)
    (hfit : t.FitsIndex)
    (hprims : ∀ ptr ∈ t.mPrimitives, ∃ p, h.get ptr = .ok p ∧ p.ValidShape) :
    ∃ bytes h' t' hmid rest,
      t.write ndebug h [] = .ok bytes ∧
      AttributeTopology.new.read ndebug h { data := bytes, failbit := false } =
        .ok (h', t', { data := [], failbit := false }) ∧
      AttributeTopology.readHeaders ndebug t.size h []
          { data := bytes.drop 4, failbit := false } = .ok (hmid, t'.mPrimitives, rest) ∧
      t'.size = t.size ∧
      t'.mPrimitives.length = t.mPrimitives.length ∧
      ∀ i, i < t.size → ∃ p p' v s,
        h.get (t.primitive i) = .ok p ∧ p.vertices = .ok v ∧ p.size = .ok s ∧
        hmid.get (t'.primitive i) = .ok (Primitive.new s v) ∧
        h'.get (t'.primitive i) = .ok p' ∧ p'.vertices = .ok v ∧ p'.size = .ok s := by
  obtain ⟨items, hitems, hwrite, hheaders, hread⟩ := write_read_core ndebug h t hfit hprims
  have hdrop : (encodeLE 4 t.mPrimitives.length ++ (headersBytes (items.map Prod.snd) ++
      (items.map fun it => it.1.payload).flatten)).drop 4 =
      headersBytes (items.map Prod.snd) ++ (items.map fun it => it.1.payload).flatten :=
    List.drop_left' (encodeLE_length 4 _)
  refine ⟨_, _, _, h ++ items.map (fun it => Primitive.new it.2.2 it.2.1),
    { data := (items.map fun it => it.1.payload).flatten, failbit := false },
    hwrite, hread, ?_, by simp [AttributeTopology.size], by simp, ?_⟩
  · rw [hdrop, size_of_fitsIndex t hfit]
    exact hheaders
  · intro i hi
    rw [size_of_fitsIndex t hfit] at hi
    obtain ⟨it, hget, hv, hsz, _, hnew, hmid⟩ := read_back_pointwise h t items hitems i hi
    exact ⟨_, _, it.2.1, it.2.2, hget, hv, hsz, hmid, hnew, hv, hsz⟩

theorem write_read_preserves_shapes_witness :
    ∃ bytes h' t' hmid rest,
      testTopology.write false testHeap [] = .ok bytes ∧
      AttributeTopology.new.read false testHeap { data := bytes, failbit := false } =
        .ok (h', t', { data := [], failbit := false }) ∧
      AttributeTopology.readHeaders false testTopology.size testHeap []
          { data := bytes.drop 4, failbit := false } = .ok (hmid, t'.mPrimitives, rest) ∧
      t'.size = testTopology.size ∧
      t'.mPrimitives.length = testTopology.mPrimitives.length ∧
      ∀ i, i < testTopology.size → ∃ p p' v s,
        testHeap.get (testTopology.primitive i) = .ok p ∧ p.vertices = .ok v ∧
        p.size = .ok s ∧
        hmid.get (t'.primitive i) = .ok (Primitive.new s v) ∧
        h'.get (t'.primitive i) = .ok p' ∧ p'.vertices = .ok v ∧ p'.size = .ok s :=
  write_read_preserves_shapes false testHeap testTopology (by decide) (fun ptr hptr => by
    have hcases : ptr = some 0 ∨ ptr = some 1 := by
      simpa [testTopology, AttributeTopology.addPrimitive, AttributeTopology.new] using hptr
    rcases hcases with rfl | rfl
    · exact ⟨Primitive.new 10 3, rfl,
        primitive_new_validShape 10 3 (by decide) (by decide) (by decide)⟩
    · exact ⟨Primitive.new 15 4, rfl,
        primitive_new_validShape 15 4 (by decide) (by decide) (by decide)⟩)

set_option maxRecDepth 100000 in
/-- The scenario of `TestAttributeTopology::testTopology`, evaluated: after
the round trip the topology has 2 primitives, of 3 and of 4 vertices, and is
equal to the original. -/
theorem testTopology_scenario :
    (testTopology.write false testHeap []).bind (fun bytes =>
      (AttributeTopology.new.read false testHeap { data := bytes, failbit := false }).bind
        fun r => do
          let v0 ← (Heap.get r.1 (r.2.1.primitive 0)).bind Primitive.vertices
          let v1 ← (Heap.get r.1 (r.2.1.primitive 1)).bind Primitive.vertices
          let e ← testTopology.operatorEq r.1 r.2.1
          pure (r.2.1.size, v0, v1, e)) = .ok (2, 3, 4, true) := by
  rfl

/-! ### Attribute lookup -/

theorem find_of_not_mem (s : AttributeSet) (name : Name)
    (hname : ∀ e ∈ s.mDescr.mEntries, e.1 ≠ name) : s.find name = INVALID_POS := by
  have hnone : s.mDescr.mEntries.findIdx? (fun e => decide (e.1 = name)) = none := by
    rw [List.findIdx?_eq_none_iff]
    intro e he
    simp [hname e he]
  simp [AttributeSet.find, hnone]

theorem find_of_mem (s : AttributeSet) (name : Name)
    (hname : ∃ e ∈ s.mDescr.mEntries, e.1 = name) :
    s.find name < s.mDescr.mEntries.length := by
  cases hidx : s.mDescr.mEntries.findIdx? (fun e => decide (e.1 = name)) with
  | none =>
    rw [List.findIdx?_eq_none_iff] at hidx
    obtain ⟨e, he, hen⟩ := hname
    simpa [hen] using hidx e he
  | some i =>
    have hlt := (List.findIdx?_eq_some_iff_findIdx_eq.mp hidx).1
    simpa [AttributeSet.find, hidx] using hlt

/-- C11: attribute lookup on a primitive that holds an attribute store with
one array per descriptor entry (at most `INVALID_POS` of them).  By position,
lookup fails with a `LookupError` when `pos >= ` the attribute count and
returns the array at `pos` otherwise; by name, it fails with a `LookupError`
when no attribute has that name and returns an array otherwise.  The mutable
accessor leaves the primitive as it was, and the mutable accessor, the const
accessor and `constAttributeArray` give the same result on every input. -/
theorem attribute_lookup (p : Primitive) (s : AttributeSet) (pos : Nat) (name : Name)
    (hp : p.mAttributeSet = some s)
    (hinv : s.mDescr.mEntries.length = s.mAttrs.length)
    (hmax : s.mAttrs.length ≤ INVALID_POS) :
    (s.size ≤ pos →
      p.attributeArrayAt pos = (.error Error.lookupError, p) ∧
      p.attributeArrayAtConst pos = .error Error.lookupError ∧
      p.constAttributeArrayAt pos = .error Error.lookupError) ∧
    (pos < s.size → ∃ a, s.mAttrs[pos]? = some a ∧
      p.attributeArrayAt pos = (.ok a, p) ∧
      p.attributeArrayAtConst pos = .ok a ∧
      p.constAttributeArrayAt pos = .ok a) ∧
    ((∀ e ∈ s.mDescr.mEntries, e.1 ≠ name) →
      p.attributeArray name = (.error Error.lookupError, p) ∧
      p.attributeArrayConst name = .error Error.lookupError ∧
      p.constAttributeArray name = .error Error.lookupError) ∧
    ((∃ e ∈ s.mDescr.mEntries, e.1 = name) → ∃ a, s.mAttrs[s.find name]? = some a ∧
      p.attributeArray name = (.ok a, p) ∧
      p.attributeArrayConst name = .ok a ∧
      p.constAttributeArray name = .ok a) ∧
    (p.attributeArrayAt pos).1 = p.attributeArrayAtConst pos ∧
    p.constAttributeArrayAt pos = p.attributeArrayAtConst pos ∧
    (p.attributeArrayAt pos).2 = p ∧
    (p.attributeArray name).1 = p.attributeArrayConst name ∧
    p.constAttributeArray name = p.attributeArrayConst name ∧
    (p.attributeArray name).2 = p := by
  refine ⟨?_, ?_, ?_, ?_, rfl, rfl, rfl, rfl, rfl, rfl⟩
  · intro hpos
    have hge : pos ≥ s.size := hpos
    simp [Primitive.attributeArrayAt, Primitive.constAttributeArrayAt,
      Primitive.attributeArrayAtConst, hp, deref, bind, Except.bind, pure, Except.pure, hge,
      throw, throwThe, MonadExceptOf.throw]
  · intro hpos
    have hlt : pos < s.mAttrs.length := hpos
    have hnge : ¬ pos ≥ s.size := Nat.not_le.mpr hpos
    refine ⟨s.mAttrs[pos], by simp [hlt], ?_⟩
    simp [Primitive.attributeArrayAt, Primitive.constAttributeArrayAt,
      Primitive.attributeArrayAtConst, AttributeSet.get, AttributeSet.getConst, hp, deref, bind,
      Except.bind, pure, Except.pure, hnge, hlt]
  · intro hname
    simp [Primitive.attributeArray, Primitive.constAttributeArray,
      Primitive.attributeArrayConst, hp, deref, bind, Except.bind, pure, Except.pure,
      find_of_not_mem s name hname, throw, throwThe, MonadExceptOf.throw]
  · intro hname
    have hlt : s.find name < s.mAttrs.length := hinv ▸ find_of_mem s name hname
    have hne : s.find name ≠ INVALID_POS := Nat.ne_of_lt (Nat.lt_of_lt_of_le hlt hmax)
    refine ⟨s.mAttrs[s.find name], by simp [hlt], ?_⟩
    simp [Primitive.attributeArray, Primitive.constAttributeArray,
      Primitive.attributeArrayConst, AttributeSet.get, AttributeSet.getConst, hp, deref, bind,
      Except.bind, pure, Except.pure, hne, hlt]

theorem attribute_lookup_witness :
    (testStore.size ≤ 5 →
      (Primitive.new 10 3).attributeArrayAt 5 = (.error Error.lookupError, Primitive.new 10 3) ∧
      (Primitive.new 10 3).attributeArrayAtConst 5 = .error Error.lookupError ∧
      (Primitive.new 10 3).constAttributeArrayAt 5 = .error Error.lookupError) ∧
    ((∃ e ∈ testStore.mDescr.mEntries, e.1 = indexName) →
      ∃ a, testStore.mAttrs[testStore.find indexName]? = some a ∧
        (Primitive.new 10 3).attributeArray indexName = (.ok a, Primitive.new 10 3) ∧
        (Primitive.new 10 3).attributeArrayConst indexName = .ok a ∧
        (Primitive.new 10 3).constAttributeArray indexName = .ok a) :=
  ⟨(attribute_lookup (Primitive.new 10 3) testStore 5 indexName rfl rfl (by decide)).1,
    (attribute_lookup (Primitive.new 10 3) testStore 5 indexName rfl rfl
      (by decide)).2.2.2.1⟩

/-! ### Equality of primitives -/

/-- C12: `Primitive::operator==` returns true if and only if both primitives
hold an attribute store and the two stores compare equal; a primitive with no
attribute store is equal to nothing, not to itself and not to another
primitive with no store; `operator!=` is the negation of `operator==`. -/
theorem primitive_operatorEq_iff (p q : Primitive) :
    (p.operatorEq q = true ↔
      ∃ a b, p.mAttributeSet = some a ∧ q.mAttributeSet = some b ∧ a.operatorEq b = true) ∧
    (p.operatorEq q = true ↔
      ∃ a b, p.mAttributeSet = some a ∧ q.mAttributeSet = some b ∧ a = b) ∧
    (p.mAttributeSet = none →
      p.operatorEq q = false ∧ q.operatorEq p = false ∧ p.operatorEq p = false) ∧
    (p.mAttributeSet = none → q.mAttributeSet = none → p.operatorEq q = false) ∧
    p.operatorNe q = !p.operatorEq q := by
  cases p with
  | mk sp =>
    cases q with
    | mk sq =>
      cases sp <;> cases sq <;>
        simp [Primitive.operatorEq, Primitive.operatorNe, AttributeSet.operatorEq]

theorem primitive_operatorEq_iff_witness :
    (Primitive.mk none).operatorEq (Primitive.new 10 3) = false ∧
    (Primitive.new 10 3).operatorEq (Primitive.mk none) = false ∧
    (Primitive.mk none).operatorEq (Primitive.mk none) = false :=
  (primitive_operatorEq_iff (Primitive.mk none) (Primitive.new 10 3)).2.2.1 rfl

/-! ### The copy constructor -/

/-- C16: the copy constructor makes a shallow copy of the handle list: the
copy has the same `size()`, `primitive(i)` of the copy is the handle that
`primitive(i)` of the original is, for every `i`, so that a primitive assigned
through a handle of the copy is the one seen through the handle of the
original; and appending a handle to the copy gives a topology with one more
handle while the sequence of the original is what it was. -/
theorem copy_is_shallow (t : AttributeTopology) (p : Ptr) (h : Heap) (q : Primitive) (i : Index) :
    t.copy.size = t.size ∧
    t.copy.mPrimitives = t.mPrimitives ∧
    t.copy.primitive i = t.primitive i ∧
    t.copy.primitiveConst i = t.primitiveConst i ∧
    ((∃ q0, h.get (t.primitive i) = .ok q0) →
      Heap.get (h.put (t.copy.primitive i) q) (t.primitive i) = .ok q) ∧
    (t.copy.addPrimitive p).mPrimitives = t.mPrimitives ++ [p] ∧
    (t.copy.addPrimitive p).mPrimitives.length = t.mPrimitives.length + 1 ∧
    (∀ j, j < t.mPrimitives.length → (t.copy.addPrimitive p).primitive j = t.primitive j) := by
  refine ⟨rfl, rfl, rfl, rfl, ?_, rfl, by simp [AttributeTopology.copy,
    AttributeTopology.addPrimitive], ?_⟩
  · rintro ⟨q0, hq0⟩
    have hcopy : t.copy.primitive i = t.primitive i := rfl
    rw [hcopy]
    cases hptr : t.primitive i with
    | none => simp [hptr, Heap.get, throw, throwThe, MonadExceptOf.throw] at hq0
    | some a =>
      cases ha : h[a]? with
      | none => simp [hptr, Heap.get, ha, deref, throw, throwThe, MonadExceptOf.throw] at hq0
      | some q1 =>
        have hlt : a < h.length := by
          by_contra hge
          rw [List.getElem?_eq_none (Nat.le_of_not_lt hge)] at ha
          exact Option.noConfusion ha
        simp [Heap.get, Heap.put, hlt, deref, pure, Except.pure]
  · intro j hj
    have hj' : j < t.mPrimitives.length + 1 := Nat.lt_succ_of_lt hj
    simp [AttributeTopology.copy, AttributeTopology.addPrimitive, AttributeTopology.primitive,
      hj, hj', List.getElem_append_left]

theorem copy_is_shallow_witness :
    Heap.get (testHeap.put (testTopology.copy.primitive 1) (Primitive.new 7 5))
      (testTopology.primitive 1) = .ok (Primitive.new 7 5) :=
  (copy_is_shallow testTopology none testHeap (Primitive.new 7 5) 1).2.2.2.2.1
    ⟨Primitive.new 15 4, rfl⟩

/-! ### What `read` does to the topology and the heap -/

theorem readHeaders_succ (ndebug : Bool) (n : Nat) (h : Heap) (acc : List Ptr) (is : IStream) :
    AttributeTopology.readHeaders ndebug (n + 1) h acc is =
      if (!ndebug && !decide (decodeLE (is.read (encodeLE 2 0) 2).1 > 0)) = true then
        .error Error.assertionFailed
      else
        AttributeTopology.readHeaders ndebug n
          (h ++ [Primitive.new
            (decodeLE ((is.read (encodeLE 2 0) 2).2.read (encodeLE 4 0) 4).1)
            (decodeLE (is.read (encodeLE 2 0) 2).1)])
          (acc ++ [some h.length])
          ((is.read (encodeLE 2 0) 2).2.read (encodeLE 4 0) 4).2 := by
  simp only [AttributeTopology.readHeaders, bind, Except.bind, Heap.alloc, pure, Except.pure]

theorem readHeaders_structure (ndebug : Bool) (n : Nat) (h : Heap) (acc : List Ptr)
    (is : IStream) (h' : Heap) (prims : List Ptr) (is' : IStream)
    (hok : AttributeTopology.readHeaders ndebug n h acc is = .ok (h', prims, is')) :
    ∃ news : List Primitive, news.length = n ∧ h' = h ++ news ∧
      prims = acc ++ (List.range' h.length n).map some ∧
      ∀ q ∈ news, ∃ s, q.mAttributeSet = some s := by
  induction n generalizing h acc is with
  | zero =>
    simp only [AttributeTopology.readHeaders, pure, Except.pure, Except.ok.injEq,
      Prod.mk.injEq] at hok
    exact ⟨[], rfl, by simp [hok.1], by simp [hok.2.1], by simp⟩
  | succ n ih =>
    rw [readHeaders_succ] at hok
    split at hok
    · exact Except.noConfusion hok
    · obtain ⟨news, hlen, hh, hprims, hstore⟩ := ih _ _ _ hok
      refine ⟨Primitive.new (decodeLE ((is.read (encodeLE 2 0) 2).2.read (encodeLE 4 0) 4).1)
        (decodeLE (is.read (encodeLE 2 0) 2).1) :: news, by simp [hlen], by simp [hh], ?_, ?_⟩
      · simp [hprims, List.range'_succ]
      · intro q hq
        rcases List.mem_cons.mp hq with rfl | hq
        · exact ⟨_, rfl⟩
        · exact hstore q hq

theorem primitive_read_has_store (p p' : Primitive) (is is' : IStream)
    (hok : p.read is = .ok (p', is')) : ∃ s, p'.mAttributeSet = some s := by
  simp only [Primitive.read, bind, Except.bind, pure, Except.pure] at hok
  repeat' split at hok
  all_goals first
    | exact Except.noConfusion hok
    | (simp only [Except.ok.injEq, Prod.mk.injEq] at hok
       exact ⟨_, by rw [← hok.1]⟩)

theorem primitive_read_failed (p : Primitive) (is : IStream) (hfail : is.failbit = true) :
    ∃ e, p.read is = .error e := by
  cases hs : p.mAttributeSet with
  | none => exact ⟨Error.nullDereference, by simp [Primitive.read, hs, deref, bind, Except.bind,
      throw, throwThe, MonadExceptOf.throw]⟩
  | some s =>
    exact ⟨Error.ioError, by simp [Primitive.read, hs, deref, bind, Except.bind, pure,
      Except.pure, AttributeSet.readDescriptor, IStream.readU32, IStream.readExact,
      IStream.read, hfail, throw, throwThe, MonadExceptOf.throw]⟩

theorem heap_get_some_lt (h : Heap) (a : Nat) (q : Primitive) (hq : h.get (some a) = .ok q) :
    a < h.length ∧ h[a]? = some q := by
  cases ha : h[a]? with
  | none => simp [Heap.get, ha, deref, throw, throwThe, MonadExceptOf.throw] at hq
  | some q1 =>
    have hlt : a < h.length := by
      by_contra hge
      rw [List.getElem?_eq_none (Nat.le_of_not_lt hge)] at ha
      exact Option.noConfusion ha
    simp only [Heap.get, ha, deref, pure, Except.pure, Except.ok.injEq] at hq
    exact ⟨hlt, by rw [hq]⟩

theorem heap_get_put_self (h : Heap) (ptr : Ptr) (q p' : Primitive) (hq : h.get ptr = .ok q) :
    Heap.get (h.put ptr p') ptr = .ok p' := by
  cases ptr with
  | none => simp [Heap.get, throw, throwThe, MonadExceptOf.throw] at hq
  | some a =>
    have hlt := (heap_get_some_lt h a q hq).1
    simp [Heap.get, Heap.put, hlt, deref, pure, Except.pure]

theorem holdsStore_put (h : Heap) (ptr ptr2 : Ptr) (p' : Primitive)
    (hp' : ∃ s, p'.mAttributeSet = some s) (hvalid : h.HoldsStore ptr2) :
    Heap.HoldsStore (h.put ptr p') ptr2 := by
  obtain ⟨q, s, hq, hs⟩ := hvalid
  cases ptr with
  | none => exact ⟨q, s, hq, hs⟩
  | some a =>
    cases ptr2 with
    | none => simp [Heap.get, throw, throwThe, MonadExceptOf.throw] at hq
    | some b =>
      obtain ⟨hlt, hb⟩ := heap_get_some_lt h b q hq
      by_cases hab : a = b
      · subst hab
        obtain ⟨s', hs'⟩ := hp'
        exact ⟨p', s', heap_get_put_self h (some a) q p' hq, hs'⟩
      · refine ⟨q, s, ?_, hs⟩
        simp [Heap.get, Heap.put, List.getElem?_set_ne hab, hb, deref, pure, Except.pure]

theorem readPayloads_cons_ok (ptr : Ptr) (rest : List Ptr) (h h' : Heap) (is is' : IStream)
    (hok : AttributeTopology.readPayloads (ptr :: rest) h is = .ok (h', is')) :
    ∃ q p' is1, h.get ptr = .ok q ∧ q.read is = .ok (p', is1) ∧
      AttributeTopology.readPayloads rest (h.put ptr p') is1 = .ok (h', is') := by
  simp only [AttributeTopology.readPayloads, bind, Except.bind] at hok
  cases hq : h.get ptr with
  | error e => simp [hq] at hok
  | ok q =>
    cases hr : q.read is with
    | error e => simp [hq, hr] at hok
    | ok r =>
      obtain ⟨p', is1⟩ := r
      exact ⟨q, p', is1, rfl, hr, by simpa [hq, hr] using hok⟩

theorem readPayloads_preserves (prims : List Ptr) (h h' : Heap) (is is' : IStream)
    (ptr2 : Ptr) (hok : AttributeTopology.readPayloads prims h is = .ok (h', is'))
    (hvalid : h.HoldsStore ptr2) : h'.HoldsStore ptr2 := by
  induction prims generalizing h is with
  | nil =>
    simp only [AttributeTopology.readPayloads, pure, Except.pure, Except.ok.injEq,
      Prod.mk.injEq] at hok
    exact hok.1 ▸ hvalid
  | cons ptr rest ih =>
    obtain ⟨q, p', is1, _, hread, hrest⟩ := readPayloads_cons_ok ptr rest h h' is is' hok
    exact ih _ _ hrest (holdsStore_put h ptr ptr2 p' (primitive_read_has_store q p' is is1 hread)
      hvalid)

theorem readPayloads_valid (prims : List Ptr) (h h' : Heap) (is is' : IStream)
    (hok : AttributeTopology.readPayloads prims h is = .ok (h', is')) :
    ∀ ptr ∈ prims, h'.HoldsStore ptr := by
  induction prims generalizing h is with
  | nil => simp
  | cons ptr rest ih =>
    obtain ⟨q, p', is1, hq, hread, hrest⟩ := readPayloads_cons_ok ptr rest h h' is is' hok
    intro ptr2 hptr2
    rcases List.mem_cons.mp hptr2 with rfl | hmem
    · obtain ⟨s', hs'⟩ := primitive_read_has_store q p' is is1 hread
      exact readPayloads_preserves rest _ h' is1 is' _ hrest
        ⟨p', s', heap_get_put_self h _ q p' hq, hs'⟩
    · exact ih _ _ hrest ptr2 hmem

theorem readPayloads_failed (prims : List Ptr) (h : Heap) (is : IStream)
    (hne : prims ≠ []) (hfail : is.failbit = true) :
    ∃ e, AttributeTopology.readPayloads prims h is = .error e := by
  cases prims with
  | nil => exact absurd rfl hne
  | cons ptr rest =>
    cases hq : h.get ptr with
    | error e => exact ⟨e, by simp [AttributeTopology.readPayloads, hq, bind, Except.bind]⟩
    | ok q =>
      obtain ⟨e, he⟩ := primitive_read_failed q is hfail
      exact ⟨e, by simp [AttributeTopology.readPayloads, hq, he, bind, Except.bind]⟩

theorem testQuadsPayload_written : (Primitive.new 15 4).write [] = .ok testQuadsPayload := by
  rfl

theorem read_ok_inv (ndebug : Bool) (h h' : Heap) (t t' : AttributeTopology) (is is' : IStream)
    (hok : t.read ndebug h is = .ok (h', t', is')) :
    ∃ h1 is1,
      AttributeTopology.readHeaders ndebug (decodeLE (is.read (encodeLE 4 0) 4).1) h
        t.mPrimitives (is.read (encodeLE 4 0) 4).2 = .ok (h1, t'.mPrimitives, is1) ∧
      AttributeTopology.readPayloads t'.mPrimitives h1 is1 = .ok (h', is') := by
  simp only [AttributeTopology.read, bind, Except.bind, pure, Except.pure] at hok
  split at hok
  · exact Except.noConfusion hok
  · rename_i r hr
    obtain ⟨h1, prims, is1⟩ := r
    split at hok
    · exact Except.noConfusion hok
    · rename_i r2 hr2
      obtain ⟨h2, is2⟩ := r2
      simp only [Except.ok.injEq, Prod.mk.injEq] at hok
      obtain ⟨hh, ht, his⟩ := hok
      subst hh ht his
      exact ⟨h1, is1, hr, hr2⟩

set_option maxRecDepth 100000 in
/-- C13, counterexample: a topology that holds the triangles reads a stream
that announces 0 primitives and carries one payload; `read` succeeds, the
count read is 0, and the topology has 1 primitive afterwards. -/
theorem read_size_not_count :
    (AttributeTopology.mk [some 0]).read false [Primitive.new 10 3]
        { data := [0, 0, 0, 0] ++ testQuadsPayload, failbit := false } =
      .ok ([Primitive.new 15 4], AttributeTopology.mk [some 0],
        { data := [], failbit := false }) ∧
    decodeLE (IStream.read { data := [0, 0, 0, 0] ++ testQuadsPayload, failbit := false }
      (encodeLE 4 0) 4).1 = 0 ∧
    (AttributeTopology.mk [some 0]).size = 1 := by
  exact ⟨rfl, rfl, rfl⟩

/-- C13, amended: after every successful `AttributeTopology::read` on a
topology that held `k` primitives, the sequence length is `k` plus the
primitive count that was read from the stream, so it is that count when the
topology was empty, and `size()` reports it when it is an `Index`; every
entry `primitive(i)` below the length is a non-empty handle to a primitive
that holds an attribute store. -/
theorem read_length_and_entries (ndebug : Bool) (h h' : Heap) (t t' : AttributeTopology)
    (is is' : IStream) (hok : t.read ndebug h is = .ok (h', t', is')) :
    t'.mPrimitives.length =
      t.mPrimitives.length + decodeLE (is.read (encodeLE 4 0) 4).1 ∧
    (t.empty = true → t'.mPrimitives.length = decodeLE (is.read (encodeLE 4 0) 4).1) ∧
    (t'.FitsIndex →
      t'.size = t.mPrimitives.length + decodeLE (is.read (encodeLE 4 0) 4).1) ∧
    ∀ i, i < t'.mPrimitives.length →
      ∃ a q s, t'.primitive i = some a ∧ h'.get (t'.primitive i) = .ok q ∧
        q.mAttributeSet = some s := by
  obtain ⟨h1, is1, hheaders, hpayloads⟩ := read_ok_inv ndebug h h' t t' is is' hok
  obtain ⟨news, hlen, _, hprims, _⟩ := readHeaders_structure _ _ _ _ _ _ _ _ hheaders
  have hlength : t'.mPrimitives.length =
      t.mPrimitives.length + decodeLE (is.read (encodeLE 4 0) 4).1 := by
    rw [hprims]
    simp
  refine ⟨hlength, ?_, ?_, ?_⟩
  · intro hempty
    rw [hlength, eq_new_of_empty t hempty]
    simp [AttributeTopology.new]
  · intro hfit
    rw [size_of_fitsIndex t' hfit, hlength]
  · intro i hi
    have hmem : t'.primitive i ∈ t'.mPrimitives :=
      List.getElem?_mem (primitive_of_lt t' i hi)
    obtain ⟨q, s, hq, hs⟩ := readPayloads_valid _ _ _ _ _ hpayloads _ hmem
    cases hptr : t'.primitive i with
    | none => simp [hptr, Heap.get, throw, throwThe, MonadExceptOf.throw] at hq
    | some a => exact ⟨a, q, s, rfl, hptr ▸ hq, hs⟩

theorem read_length_and_entries_witness :
    (AttributeTopology.mk [some 0]).mPrimitives.length =
      (AttributeTopology.mk [some 0]).mPrimitives.length +
        decodeLE (IStream.read { data := [0, 0, 0, 0] ++ testQuadsPayload, failbit := false }
          (encodeLE 4 0) 4).1 ∧
    ∀ i, i < (AttributeTopology.mk [some 0]).mPrimitives.length →
      ∃ a q s, (AttributeTopology.mk [some 0]).primitive i = some a ∧
        Heap.get [Primitive.new 15 4] ((AttributeTopology.mk [some 0]).primitive i) = .ok q ∧
        q.mAttributeSet = some s :=
  have hread : (AttributeTopology.mk [some 0]).read false [Primitive.new 10 3]
      { data := [0, 0, 0, 0] ++ testQuadsPayload, failbit := false } =
      .ok ([Primitive.new 15 4], AttributeTopology.mk [some 0],
        { data := [], failbit := false }) := by
    set_option maxRecDepth 100000 in rfl
  ⟨(read_length_and_entries false _ _ _ _ _ _ hread).1,
    (read_length_and_entries false _ _ _ _ _ _ hread).2.2.2⟩

/-! ### Truncated streams and zero arity on `read` -/

theorem istream_read_state (is : IStream) (buf : List Byte) (k : Nat) :
    (is.read buf k).2.failbit = true ∨
      (is.failbit = false ∧ k ≤ is.data.length ∧
        (is.read buf k).2.data.length = is.data.length - k) := by
  unfold IStream.read
  cases hf : is.failbit with
  | true => left; simp [hf]
  | false =>
    by_cases hk : k ≤ is.data.length
    · right; simp [hk]
    · left; simp [hk]

theorem istream_read_failed (is : IStream) (buf : List Byte) (k : Nat)
    (hfail : is.failbit = true) : (is.read buf k).2.failbit = true := by
  simp [IStream.read, hfail]

theorem readHeaders_short (ndebug : Bool) (n : Nat) (h : Heap) (acc : List Ptr) (is : IStream)
    (hshort : is.failbit = true ∨ is.data.length < 6 * n) :
    (∃ e, AttributeTopology.readHeaders ndebug n h acc is = .error e) ∨
    ∃ h' prims is', AttributeTopology.readHeaders ndebug n h acc is = .ok (h', prims, is') ∧
      is'.failbit = true := by
  induction n generalizing h acc is with
  | zero =>
    rcases hshort with hfail | hlt
    · exact Or.inr ⟨h, acc, is, rfl, hfail⟩
    · exact absurd hlt (Nat.not_lt_zero _)
  | succ n ih =>
    rw [readHeaders_succ]
    split
    · exact Or.inl ⟨_, rfl⟩
    · apply ih
      rcases hshort with hfail | hlt
      · exact Or.inl (istream_read_failed _ _ _ (istream_read_failed _ _ _ hfail))
      · rcases istream_read_state is (encodeLE 2 0) 2 with hf1 | ⟨_, h2, hlen1⟩
        · exact Or.inl (istream_read_failed _ _ _ hf1)
        · rcases istream_read_state (is.read (encodeLE 2 0) 2).2 (encodeLE 4 0) 4 with
            hf2 | ⟨_, h4, hlen2⟩
          · exact Or.inl hf2
          · right
            rw [hlen2, hlen1]
            omega

theorem read_truncated (ndebug : Bool) (h : Heap) (t : AttributeTopology) (bytes : List Byte)
    (hshort : bytes.length <
      4 + 6 * decodeLE (IStream.read { data := bytes, failbit := false } (encodeLE 4 0) 4).1)
    (hsome : t.empty = false ∨
      1 ≤ decodeLE (IStream.read { data := bytes, failbit := false } (encodeLE 4 0) 4).1) :
    ∃ e, t.read ndebug h { data := bytes, failbit := false } = .error e := by
  have hstate : (IStream.read { data := bytes, failbit := false } (encodeLE 4 0) 4).2.failbit =
      true ∨ (IStream.read { data := bytes, failbit := false } (encodeLE 4 0) 4).2.data.length <
        6 * decodeLE (IStream.read { data := bytes, failbit := false } (encodeLE 4 0) 4).1 := by
    rcases istream_read_state { data := bytes, failbit := false } (encodeLE 4 0) 4 with
      hf | ⟨_, h4, hlen⟩
    · exact Or.inl hf
    · right
      rw [hlen]
      simp only at h4 ⊢
      omega
  rcases readHeaders_short ndebug _ h t.mPrimitives _ hstate with ⟨e, he⟩ | ⟨h1, prims, is1, hr, hf⟩
  · exact ⟨e, by simp [AttributeTopology.read, he, bind, Except.bind]⟩
  · obtain ⟨news, hlen, _, hprims, _⟩ := readHeaders_structure _ _ _ _ _ _ _ _ hr
    have hne : prims ≠ [] := by
      intro hnil
      have hzero : prims.length = 0 := by rw [hnil]; rfl
      rw [hprims] at hzero
      simp only [List.length_append, List.length_map, List.length_range'] at hzero
      rcases hsome with hempty | hone
      · cases ht : t.mPrimitives with
        | nil => simp [AttributeTopology.empty, ht] at hempty
        | cons x xs => simp [ht] at hzero
      · omega
    obtain ⟨e, he⟩ := readPayloads_failed prims h1 is1 hne hf
    exact ⟨e, by simp [AttributeTopology.read, hr, he, bind, Except.bind]⟩

theorem readHeaders_zero_arity (pre : List (Nat × Nat)) (m : Nat) (v s : Nat) (h : Heap)
    (acc : List Ptr) (rest : List Byte) (hv : v % UINT16_RANGE = 0) :
    AttributeTopology.readHeaders false (pre.length + 1 + m) h acc
        { data := headersBytes (pre ++ [(v, s)]) ++ rest, failbit := false } =
      .error Error.assertionFailed := by
  induction pre generalizing h acc with
  | nil =>
    have hn : ([] : List (Nat × Nat)).length + 1 + m = m + 1 := by simp; omega
    rw [hn, readHeaders_succ]
    simp [headersBytes, istream_read_append (encodeLE 2 v) _ _ 2 (encodeLE_length 2 v),
      decodeLE_encodeLE_two, hv]
  | cons vs pre ih =>
    have hn : (vs :: pre).length + 1 + m = (pre.length + 1 + m) + 1 := by simp; omega
    rw [hn, readHeaders_succ]
    simp only [List.cons_append, headersBytes, List.append_assoc,
      istream_read_append (encodeLE 2 vs.1) _ _ 2 (encodeLE_length 2 vs.1),
      istream_read_append (encodeLE 4 vs.2) _ _ 4 (encodeLE_length 4 vs.2)]
    split
    · rfl
    · have ih' := ih (h ++ [Primitive.new (decodeLE (encodeLE 4 vs.2))
        (decodeLE (encodeLE 2 vs.1))]) (acc ++ [some h.length])
      simpa only [List.append_assoc] using ih'

set_option maxRecDepth 100000 in
/-- C14, counterexample: the empty stream, which ends before the 4-byte count
is complete, is read into a fresh topology without an error, in both build
modes: the result is an empty topology.  With the `assert` compiled out, a
stream whose only header carries arity 0 is read without an error too. -/
theorem read_accepts_truncated_count :
    AttributeTopology.new.read false [] { data := [], failbit := false } =
      .ok ([], AttributeTopology.new, { data := [], failbit := true }) ∧
    AttributeTopology.new.read true [] { data := [], failbit := false } =
      .ok ([], AttributeTopology.new, { data := [], failbit := true }) ∧
    AttributeTopology.new.read true [] { data := testZeroArityStream, failbit := false } =
      .ok ([Primitive.new 10 0], AttributeTopology.mk [some 0],
        { data := [], failbit := false }) := by
  exact ⟨rfl, rfl, rfl⟩

/-- C14, amended: `AttributeTopology::read` does not return normally for an
input that ends before the 4-byte count or before the announced 6-byte headers
are complete, when the count it reads (from the bytes present, the missing
ones being zero) is at least 1 or the topology already holds a primitive; and
in a build with the `assert` enabled it aborts for every input in which a
complete header among the announced ones carries arity 0. -/
theorem read_rejects_truncated_or_zero_arity (h : Heap) (t : AttributeTopology) :
    (∀ (ndebug : Bool) (bytes : List Byte),
      bytes.length <
        4 + 6 * decodeLE (IStream.read { data := bytes, failbit := false } (encodeLE 4 0) 4).1 →
      (t.empty = false ∨
        1 ≤ decodeLE (IStream.read { data := bytes, failbit := false } (encodeLE 4 0) 4).1) →
      ∃ e, t.read ndebug h { data := bytes, failbit := false } = .error e) ∧
    (∀ (n : Nat) (pre : List (Nat × Nat)) (s : Nat) (rest : List Byte),
      n < UINT32_RANGE → pre.length < n →
      t.read false h
          { data := encodeLE 4 n ++ (headersBytes (pre ++ [(0, s)]) ++ rest),
            failbit := false } =
        .error Error.assertionFailed) := by
  refine ⟨fun ndebug bytes hshort hsome => read_truncated ndebug h t bytes hshort hsome, ?_⟩
  intro n pre s rest hn hpre
  obtain ⟨m, hm⟩ : ∃ m, n = pre.length + 1 + m := ⟨n - (pre.length + 1), by omega⟩
  have hzero := readHeaders_zero_arity pre m 0 s h t.mPrimitives rest (by decide)
  simp only [AttributeTopology.read,
    istream_read_append (encodeLE 4 n) _ _ 4 (encodeLE_length 4 n), decodeLE_encodeLE_four,
    Nat.mod_eq_of_lt hn, bind, Except.bind]
  rw [hm, hzero]

theorem read_rejects_truncated_or_zero_arity_witness :
    (∃ e, AttributeTopology.new.read true []
      { data := [1, 0, 0, 0, 3, 0], failbit := false } = .error e) ∧
    AttributeTopology.new.read false []
        { data := encodeLE 4 1 ++ (headersBytes ([] ++ [(0, 10)]) ++ []), failbit := false } =
      .error Error.assertionFailed :=
  ⟨(read_rejects_truncated_or_zero_arity [] AttributeTopology.new).1 true [1, 0, 0, 0, 3, 0]
      (by decide) (Or.inr (by decide)),
    (read_rejects_truncated_or_zero_arity [] AttributeTopology.new).2 1 [] 10 []
      (by decide) (by decide)⟩

/-! ### The arity check of `write` and the header fields -/

theorem writeHeaders_cons (ndebug : Bool) (h : Heap) (ptr : Ptr) (rest : List Ptr)
    (os : OStream) (p : Primitive) (v s : Index)
    (hp : h.get ptr = .ok p) (hv : p.vertices = .ok v) (hs : p.size = .ok s) :
    AttributeTopology.writeHeaders ndebug h (ptr :: rest) os =
      if (!ndebug && !decide (v % UINT16_RANGE > 0)) = true then .error Error.assertionFailed
      else AttributeTopology.writeHeaders ndebug h rest
        (os ++ encodeLE 2 (v % UINT16_RANGE) ++ encodeLE 4 (s % UINT32_RANGE)) := by
  simp only [AttributeTopology.writeHeaders, hp, hv, hs, bind, Except.bind, pure, Except.pure]

theorem writeHeaders_ok_inv (ndebug : Bool) (h : Heap) (prims : List Ptr) (os out : OStream)
    (hok : AttributeTopology.writeHeaders ndebug h prims os = .ok out) :
    ∃ shapes : List (Nat × Nat),
      List.Forall₂ (fun ptr vs => ∃ p, h.get ptr = .ok p ∧ p.vertices = .ok vs.1 ∧
        p.size = .ok vs.2 ∧ (ndebug = true ∨ 0 < vs.1 % UINT16_RANGE)) prims shapes := by
  induction prims generalizing os with
  | nil => exact ⟨[], List.Forall₂.nil⟩
  | cons ptr rest ih =>
    cases hp : h.get ptr with
    | error e => simp [AttributeTopology.writeHeaders, hp, bind, Except.bind] at hok
    | ok p =>
      cases hv : p.vertices with
      | error e => simp [AttributeTopology.writeHeaders, hp, hv, bind, Except.bind] at hok
      | ok v =>
        obtain ⟨s, hs⟩ := size_ok_of_vertices_ok p v hv
        rw [writeHeaders_cons ndebug h ptr rest os p v s hp hv hs] at hok
        split at hok
        · exact Except.noConfusion hok
        · rename_i hcond
          obtain ⟨shapes, hshapes⟩ := ih _ hok
          refine ⟨(v, s) :: shapes, List.Forall₂.cons ⟨p, hp, hv, hs, ?_⟩ hshapes⟩
          cases ndebug with
          | true => exact Or.inl rfl
          | false =>
            right
            exact Nat.pos_of_ne_zero (by simpa using hcond)

theorem writeHeaders_assertionFailed (h : Heap) (prims : List Ptr) (os : OStream)
    (hvalid : ∀ ptr ∈ prims, ∃ p v, h.get ptr = .ok p ∧ p.vertices = .ok v)
    (hzero : ∃ ptr ∈ prims, ∃ p v, h.get ptr = .ok p ∧ p.vertices = .ok v ∧
      v % UINT16_RANGE = 0) :
    AttributeTopology.writeHeaders false h prims os = .error Error.assertionFailed := by
  induction prims generalizing os with
  | nil =>
    obtain ⟨ptr, hmem, _⟩ := hzero
    simp at hmem
  | cons ptr rest ih =>
    obtain ⟨p, v, hp, hv⟩ := hvalid ptr (List.mem_cons_self ptr rest)
    obtain ⟨s, hs⟩ := size_ok_of_vertices_ok p v hv
    rw [writeHeaders_cons false h ptr rest os p v s hp hv hs]
    split
    · rfl
    · rename_i hcond
      have hpos : 0 < v % UINT16_RANGE := Nat.pos_of_ne_zero (by simpa using hcond)
      apply ih _ (fun x hx => hvalid x (List.mem_cons_of_mem ptr hx))
      obtain ⟨ptr0, hmem, p0, v0, hp0, hv0, hz⟩ := hzero
      rcases List.mem_cons.mp hmem with rfl | hmem'
      · rw [hp] at hp0
        cases hp0
        rw [hv] at hv0
        cases hv0
        exact absurd hz (Nat.ne_of_gt hpos)
      · exact ⟨ptr0, hmem', p0, v0, hp0, hv0, hz⟩

theorem writePayloads_ok_inv (h : Heap) (prims : List Ptr) (os out : OStream)
    (hok : AttributeTopology.writePayloads h prims os = .ok out) :
    ∃ chunks : List (List Byte),
      List.Forall₂ (fun ptr chunk => ∃ p, h.get ptr = .ok p ∧
        ∀ os, p.write os = .ok (os ++ chunk)) prims chunks := by
  induction prims generalizing os with
  | nil => exact ⟨[], List.Forall₂.nil⟩
  | cons ptr rest ih =>
    cases hp : h.get ptr with
    | error e => simp [AttributeTopology.writePayloads, hp, bind, Except.bind] at hok
    | ok p =>
      cases hs : p.mAttributeSet with
      | none =>
        simp [AttributeTopology.writePayloads, hp, Primitive.write, hs, deref, bind,
          Except.bind, throw, throwThe, MonadExceptOf.throw] at hok
      | some s =>
        simp only [AttributeTopology.writePayloads, hp, primitive_write_general p s _ hs, bind,
          Except.bind] at hok
        obtain ⟨chunks, hchunks⟩ := ih _ hok
        exact ⟨s.writtenBytes :: chunks, List.Forall₂.cons
          ⟨p, hp, fun os => primitive_write_general p s os hs⟩ hchunks⟩

theorem write_ok_inv (ndebug : Bool) (h : Heap) (t : AttributeTopology) (os out : OStream)
    (hok : t.write ndebug h os = .ok out) :
    ∃ (shapes : List (Nat × Nat)) (chunks : List (List Byte)),
      List.Forall₂ (fun ptr vs => ∃ p, h.get ptr = .ok p ∧ p.vertices = .ok vs.1 ∧
        p.size = .ok vs.2 ∧ (ndebug = true ∨ 0 < vs.1 % UINT16_RANGE)) t.mPrimitives shapes ∧
      out = os ++ (encodeLE 4 t.size ++ (headersBytes shapes ++ chunks.flatten)) := by
  simp only [AttributeTopology.write, bind, Except.bind] at hok
  split at hok
  · exact Except.noConfusion hok
  · rename_i mid hmid
    obtain ⟨shapes, hshapes⟩ := writeHeaders_ok_inv ndebug h _ _ _ hmid
    obtain ⟨chunks, hchunks⟩ := writePayloads_ok_inv h _ _ _ hok
    rw [writeHeaders_eq ndebug h _ shapes _ hshapes] at hmid
    rw [writePayloads_eq h _ chunks _ hchunks] at hok
    simp only [Except.ok.injEq] at hmid hok
    refine ⟨shapes, chunks, hshapes, ?_⟩
    rw [← hok, ← hmid]
    simp [AttributeTopology.size, List.append_assoc]

theorem header_fields (shapes : List (Nat × Nat)) (i : Nat) (vs : Nat × Nat)
    (hi : shapes[i]? = some vs) :
    decodeLE (((headersBytes shapes).drop (6 * i)).take 2) = vs.1 % UINT16_RANGE ∧
    decodeLE ((((headersBytes shapes).drop (6 * i)).take 6).drop 2) = vs.2 % UINT32_RANGE := by
  have hslice := headersBytes_slice shapes i vs hi
  have htake : ((headersBytes shapes).drop (6 * i)).take 2 =
      (((headersBytes shapes).drop (6 * i)).take 6).take 2 := by
    rw [List.take_take]
    rfl
  rw [htake, hslice, List.take_left' (encodeLE_length 2 vs.1),
    List.drop_left' (encodeLE_length 2 vs.1), decodeLE_encodeLE_two, decodeLE_encodeLE_four]
  exact ⟨rfl, rfl⟩

theorem forall₂_getElem?_right {α β : Type} {R : α → β → Prop} {l₁ : List α} {l₂ : List β}
    (hR : List.Forall₂ R l₁ l₂) (i : Nat) (b : β) (hb : l₂[i]? = some b) :
    ∃ a, l₁[i]? = some a ∧ R a b := by
  induction hR generalizing i with
  | nil => simp at hb
  | @cons x y l₁ l₂ hxy _ ih =>
    cases i with
    | zero =>
      simp only [List.getElem?_cons_zero, Option.some.injEq] at hb
      exact ⟨x, by simp, hb ▸ hxy⟩
    | succ j =>
      simp only [List.getElem?_cons_succ] at hb
      simpa using ih j hb

theorem forall₂_of_mem {α β : Type} {R : α → β → Prop} {l₁ : List α} {l₂ : List β}
    (hR : List.Forall₂ R l₁ l₂) (a : α) (ha : a ∈ l₁) : ∃ b, b ∈ l₂ ∧ R a b := by
  obtain ⟨i, hi⟩ := List.mem_iff_getElem?.mp ha
  obtain ⟨b, hb, hab⟩ := forall₂_getElem? hR i a hi
  exact ⟨b, List.getElem?_mem hb, hab⟩

set_option maxRecDepth 100000 in
/-- C15, counterexample: with the `assert` compiled out, `write` of a topology
whose only primitive has `vertices() == 0` succeeds and emits a header whose
2-byte arity field is zero. -/
theorem write_emits_zero_arity :
    (Primitive.new 10 0).vertices = .ok 0 ∧
    (AttributeTopology.mk [some 0]).write true [Primitive.new 10 0] [] =
      .ok testZeroArityStream ∧
    (testZeroArityStream.drop 4).take 2 = [0, 0] := by
  exact ⟨rfl, rfl, rfl⟩

/-- C15, amended: in a build with the `assert` enabled, serializing a topology
that contains a primitive whose `vertices()` is 0 is rejected: `write` does
not return normally (it aborts on the failed assertion when every handle
points to a primitive with an "index" attribute), and no output of a
successful `write` contains a header whose 2-byte arity field is zero. -/
theorem write_rejects_zero_arity (h : Heap) (t : AttributeTopology) (os : OStream) :
    ((∃ ptr ∈ t.mPrimitives, ∃ p, h.get ptr = .ok p ∧ p.vertices = .ok 0) →
      ∃ e, t.write false h os = .error e) ∧
    ((∀ ptr ∈ t.mPrimitives, ∃ p v, h.get ptr = .ok p ∧ p.vertices = .ok v) →
      (∃ ptr ∈ t.mPrimitives, ∃ p, h.get ptr = .ok p ∧ p.vertices = .ok 0) →
      t.write false h os = .error Error.assertionFailed) ∧
    (∀ out, t.write false h os = .ok out →
      ∃ (shapes : List (Nat × Nat)) (chunks : List (List Byte)),
        shapes.length = t.mPrimitives.length ∧
        out = os ++ (encodeLE 4 t.size ++ (headersBytes shapes ++ chunks.flatten)) ∧
        ∀ i, i < shapes.length →
          decodeLE (((headersBytes shapes).drop (6 * i)).take 2) ≠ 0) := by
  refine ⟨?_, ?_, ?_⟩
  · rintro ⟨ptr, hmem, p, hp, hv⟩
    cases hw : t.write false h os with
    | error e => exact ⟨e, rfl⟩
    | ok out =>
      obtain ⟨shapes, _, hshapes, _⟩ := write_ok_inv false h t os out hw
      obtain ⟨vs, _, p', hp', hv', _, hassert⟩ := forall₂_of_mem hshapes ptr hmem
      rw [hp] at hp'
      cases hp'
      rw [hv] at hv'
      simp only [Except.ok.injEq] at hv'
      rcases hassert with hnd | hpos
      · exact Bool.noConfusion hnd
      · rw [← hv'] at hpos
        exact absurd hpos (by decide)
  · rintro hvalid ⟨ptr, hmem, p, hp, hv⟩
    have hfail := writeHeaders_assertionFailed h t.mPrimitives
      (os ++ encodeLE 4 (t.mPrimitives.length % UINT32_RANGE)) hvalid
      ⟨ptr, hmem, p, 0, hp, hv, by decide⟩
    simp only [AttributeTopology.write, hfail, bind, Except.bind]
  · intro out hw
    obtain ⟨shapes, chunks, hshapes, hout⟩ := write_ok_inv false h t os out hw
    refine ⟨shapes, chunks, hshapes.length_eq.symm, hout, fun i hi => ?_⟩
    have hget : shapes[i]? = some shapes[i] := by simp [hi]
    obtain ⟨ptr, _, p, _, _, _, hassert⟩ := forall₂_getElem?_right hshapes i _ hget
    rw [(header_fields shapes i _ hget).1]
    rcases hassert with hnd | hpos
    · exact Bool.noConfusion hnd
    · exact Nat.ne_of_gt hpos

theorem write_rejects_zero_arity_witness :
    (∃ e, (AttributeTopology.mk [some 0, some 1]).write false
      [Primitive.new 10 3, Primitive.new 10 0] [] = .error e) ∧
    (AttributeTopology.mk [some 0, some 1]).write false
      [Primitive.new 10 3, Primitive.new 10 0] [] = .error Error.assertionFailed :=
  ⟨(write_rejects_zero_arity [Primitive.new 10 3, Primitive.new 10 0]
      (AttributeTopology.mk [some 0, some 1]) []).1
      ⟨some 1, by simp, Primitive.new 10 0, rfl, rfl⟩,
    (write_rejects_zero_arity [Primitive.new 10 3, Primitive.new 10 0]
      (AttributeTopology.mk [some 0, some 1]) []).2.1
      (fun ptr hptr => by
        have hcases : ptr = some 0 ∨ ptr = some 1 := by simpa using hptr
        rcases hcases with rfl | rfl
        · exact ⟨Primitive.new 10 3, 3, rfl, rfl⟩
        · exact ⟨Primitive.new 10 0, 0, rfl, rfl⟩)
      ⟨some 1, by simp, Primitive.new 10 0, rfl, rfl⟩⟩

set_option maxRecDepth 100000 in
/-- C17: the arity field of a header is `vertices()` reduced modulo `2^16`,
and the zero check is applied to the reduced value.  For a topology whose
count is an `Index` and whose primitives pass the check (or with the check
compiled out), `write` succeeds and the 2-byte field of header `i` holds
`v mod 65536` for `v = vertices()` of primitive `i`, which is `v` exactly when
`v <= 65535`; the 4-byte field holds `size()` modulo `2^32`, which is `size()`
for every `Index`; and the header loop of `read` constructs from these headers
the primitives `Primitive(size mod 2^32, v mod 65536)`.  With the check
enabled, a primitive whose `vertices()` is a multiple of 65536 makes `write`
abort although `vertices()` may be positive: so for 65536.  A primitive of
65537 vertices is written with arity 1, and the header loop of `read`
constructs for it a primitive of 1 vertex. -/
theorem header_arity_reduced (ndebug : Bool) (h : Heap) (t : AttributeTopology)
    (os : OStream) :
    (t.FitsIndex →
      (∀ ptr ∈ t.mPrimitives, ∃ p v, h.get ptr = .ok p ∧ p.vertices = .ok v ∧
        (ndebug = true ∨ 0 < v % UINT16_RANGE)) →
      ∃ (shapes : List (Nat × Nat)) (chunks : List (List Byte)),
        List.Forall₂ (fun ptr vs => ∃ p, h.get ptr = .ok p ∧ p.vertices = .ok vs.1 ∧
          p.size = .ok vs.2) t.mPrimitives shapes ∧
        t.write ndebug h os =
          .ok (os ++ (encodeLE 4 t.size ++ (headersBytes shapes ++ chunks.flatten))) ∧
        (∀ i vs, shapes[i]? = some vs →
          decodeLE (((headersBytes shapes).drop (6 * i)).take 2) = vs.1 % 65536 ∧
          (decodeLE (((headersBytes shapes).drop (6 * i)).take 2) = vs.1 ↔ vs.1 ≤ 65535) ∧
          decodeLE ((((headersBytes shapes).drop (6 * i)).take 6).drop 2) =
            vs.2 % UINT32_RANGE ∧
          (vs.2 < UINT32_RANGE →
            decodeLE ((((headersBytes shapes).drop (6 * i)).take 6).drop 2) = vs.2)) ∧
        ∀ (h0 : Heap) (rest : List Byte),
          AttributeTopology.readHeaders ndebug shapes.length h0 []
              { data := headersBytes shapes ++ rest, failbit := false } =
            .ok (h0 ++ shapes.map (fun vs => Primitive.new (vs.2 % UINT32_RANGE) (vs.1 % 65536)),
              (List.range' h0.length shapes.length).map some,
              { data := rest, failbit := false })) ∧
    ((∀ ptr ∈ t.mPrimitives, ∃ p v, h.get ptr = .ok p ∧ p.vertices = .ok v) →
      (∃ ptr ∈ t.mPrimitives, ∃ p v, h.get ptr = .ok p ∧ p.vertices = .ok v ∧
        v % 65536 = 0) →
      t.write false h os = .error Error.assertionFailed) ∧
    ((Primitive.new 10 65536).vertices = .ok 65536 ∧
      (AttributeTopology.mk [some 0]).write false [Primitive.new 10 65536] [] =
        .error Error.assertionFailed) ∧
    ((Primitive.new 10 65537).vertices = .ok 65537 ∧
      ∃ bytes rest,
        (AttributeTopology.mk [some 0]).write false [Primitive.new 10 65537] [] = .ok bytes ∧
        bytes.take 10 = [1, 0, 0, 0, 1, 0, 10, 0, 0, 0] ∧
        AttributeTopology.readHeaders false 1 [] [] { data := bytes.drop 4, failbit := false } =
          .ok ([Primitive.new 10 1], [some 0], rest) ∧
        (Primitive.new 10 1).vertices = .ok 1) := by
  refine ⟨?_, ?_, ⟨rfl, rfl⟩, rfl, _, _, rfl, rfl, rfl, rfl⟩
  · intro hfit hprims
    have hsize := size_of_fitsIndex t hfit
    obtain ⟨shapes, hshapes⟩ := exists_forall₂_of_forall_mem
      (fun ptr (vs : Nat × Nat) => ∃ p, h.get ptr = .ok p ∧ p.vertices = .ok vs.1 ∧
        p.size = .ok vs.2 ∧ (ndebug = true ∨ 0 < vs.1 % UINT16_RANGE)) t.mPrimitives
      (fun ptr hptr => by
        obtain ⟨p, v, hp, hv, hassert⟩ := hprims ptr hptr
        obtain ⟨s, hs⟩ := size_ok_of_vertices_ok p v hv
        exact ⟨(v, s), p, hp, hv, hs, hassert⟩)
    obtain ⟨chunks, hchunks⟩ := exists_forall₂_of_forall_mem
      (fun ptr (chunk : List Byte) => ∃ p, h.get ptr = .ok p ∧
        ∀ os, p.write os = .ok (os ++ chunk)) t.mPrimitives
      (fun ptr hptr => by
        obtain ⟨p, v, hp, hv, _⟩ := hprims ptr hptr
        obtain ⟨s, hs⟩ := store_of_vertices_ok p v hv
        exact ⟨s.writtenBytes, p, hp, fun os => primitive_write_general p s os hs⟩)
    refine ⟨shapes, chunks, hshapes.imp fun _ _ ⟨p, hp, hv, hs, _⟩ => ⟨p, hp, hv, hs⟩, ?_, ?_, ?_⟩
    · simp only [AttributeTopology.write, writeHeaders_eq ndebug h _ shapes _ hshapes,
        writePayloads_eq h _ chunks _ hchunks, bind, Except.bind, List.append_assoc,
        AttributeTopology.size]
    · intro i vs hi
      obtain ⟨hv, hs⟩ := header_fields shapes i vs hi
      have hv' : decodeLE (((headersBytes shapes).drop (6 * i)).take 2) = vs.1 % 65536 := hv
      refine ⟨hv', ?_, hs, fun hlt => by rw [hs, Nat.mod_eq_of_lt hlt]⟩
      rw [hv']
      constructor
      · intro heq
        have hlt : vs.1 % 65536 < 65536 := Nat.mod_lt _ (by decide)
        omega
      · intro hle
        exact Nat.mod_eq_of_lt (by omega)
    · intro h0 rest
      have hrh := readHeaders_eq ndebug shapes h0 [] rest (by
        intro vs hvs
        obtain ⟨i, hi⟩ := List.mem_iff_getElem?.mp hvs
        obtain ⟨_, _, _, _, _, _, hassert⟩ := forall₂_getElem?_right hshapes i vs hi
        exact hassert)
      simpa [UINT16_RANGE] using hrh
  · intro hvalid hzero
    have hfail := writeHeaders_assertionFailed h t.mPrimitives
      (os ++ encodeLE 4 (t.mPrimitives.length % UINT32_RANGE)) hvalid hzero
    simp only [AttributeTopology.write, hfail, bind, Except.bind]

theorem header_arity_reduced_witness :
    ∃ (shapes : List (Nat × Nat)) (chunks : List (List Byte)),
      List.Forall₂ (fun ptr vs => ∃ p, testHeap.get ptr = .ok p ∧ p.vertices = .ok vs.1 ∧
        p.size = .ok vs.2) testTopology.mPrimitives shapes ∧
      testTopology.write false testHeap [] =
        .ok ([] ++ (encodeLE 4 testTopology.size ++ (headersBytes shapes ++ chunks.flatten))) ∧
      (∀ i vs, shapes[i]? = some vs →
        decodeLE (((headersBytes shapes).drop (6 * i)).take 2) = vs.1 % 65536 ∧
        (decodeLE (((headersBytes shapes).drop (6 * i)).take 2) = vs.1 ↔ vs.1 ≤ 65535) ∧
        decodeLE ((((headersBytes shapes).drop (6 * i)).take 6).drop 2) =
          vs.2 % UINT32_RANGE ∧
        (vs.2 < UINT32_RANGE →
          decodeLE ((((headersBytes shapes).drop (6 * i)).take 6).drop 2) = vs.2)) ∧
      ∀ (h0 : Heap) (rest : List Byte),
        AttributeTopology.readHeaders false shapes.length h0 []
            { data := headersBytes shapes ++ rest, failbit := false } =
          .ok (h0 ++ shapes.map (fun vs => Primitive.new (vs.2 % UINT32_RANGE) (vs.1 % 65536)),
            (List.range' h0.length shapes.length).map some,
            { data := rest, failbit := false }) :=
  (header_arity_reduced false testHeap testTopology []).1 (by decide) (fun ptr hptr => by
    have hcases : ptr = some 0 ∨ ptr = some 1 := by
      simpa [testTopology, AttributeTopology.addPrimitive, AttributeTopology.new] using hptr
    rcases hcases with rfl | rfl
    · exact ⟨Primitive.new 10 3, 3, rfl, rfl, Or.inr (by decide)⟩
    · exact ⟨Primitive.new 15 4, 4, rfl, rfl, Or.inr (by decide)⟩)

/-! ### `read` on a topology that already holds primitives -/

theorem readPayloads_general (prims : List Ptr) (stores : List AttributeSet) (H : Heap)
    (rest : List Byte) (hlen : prims.length = stores.length)
    (hvalid : ∀ ptr ∈ prims, H.HoldsStore ptr) (hs : ∀ s ∈ stores, s.Serializable) :
    AttributeTopology.readPayloads prims H
        { data := (stores.map AttributeSet.payload).flatten ++ rest, failbit := false } =
      .ok (H.putAll (prims.zip stores), { data := rest, failbit := false }) := by
  induction prims generalizing stores H with
  | nil => simp [AttributeTopology.readPayloads, Heap.putAll, List.length_eq_zero.mp hlen.symm,
      pure, Except.pure]
  | cons ptr prims ih =>
    cases stores with
    | nil => simp at hlen
    | cons s stores =>
      obtain ⟨q, s0, hq, hs0⟩ := hvalid ptr (List.mem_cons_self ptr prims)
      have ih' := ih stores (H.put ptr { mAttributeSet := some s }) (by simpa using hlen)
        (fun x hx => holdsStore_put H ptr x _ ⟨s, rfl⟩ (hvalid x (List.mem_cons_of_mem ptr hx)))
        (fun x hx => hs x (List.mem_cons_of_mem s hx))
      simp only [List.map_cons, List.flatten_cons, List.append_assoc,
        AttributeTopology.readPayloads, hq,
        primitive_read_payload q s0 s _ hs0 (hs s (List.mem_cons_self s stores)), ih',
        bind, Except.bind, List.zip_cons_cons, Heap.putAll]
      rfl

theorem heap_get_put_ne (h : Heap) (ptr ptr2 : Ptr) (p' : Primitive) (hne : ptr ≠ ptr2) :
    Heap.get (h.put ptr p') ptr2 = h.get ptr2 := by
  cases ptr with
  | none => rfl
  | some a =>
    cases ptr2 with
    | none => rfl
    | some b =>
      have hab : a ≠ b := fun hab => hne (by rw [hab])
      simp [Heap.get, Heap.put, List.getElem?_set_ne hab]

theorem putAll_get_of_not_mem (l : List (Ptr × AttributeSet)) (H : Heap) (ptr : Ptr)
    (hnot : ptr ∉ l.map Prod.fst) : Heap.get (H.putAll l) ptr = H.get ptr := by
  induction l generalizing H with
  | nil => rfl
  | cons x l ih =>
    simp only [List.map_cons, List.mem_cons, not_or] at hnot
    rw [Heap.putAll, ih _ hnot.2, heap_get_put_ne H x.1 ptr _ (Ne.symm hnot.1)]

theorem putAll_get (prims : List Ptr) (stores : List AttributeSet) (H : Heap)
    (hlen : prims.length = stores.length) (hnodup : prims.Nodup)
    (hvalid : ∀ ptr ∈ prims, H.HoldsStore ptr) (i : Nat) (ptr : Ptr) (s : AttributeSet)
    (hptr : prims[i]? = some ptr) (hs : stores[i]? = some s) :
    Heap.get (H.putAll (prims.zip stores)) ptr = .ok { mAttributeSet := some s } := by
  induction prims generalizing stores H i with
  | nil => simp at hptr
  | cons x prims ih =>
    cases stores with
    | nil => simp at hlen
    | cons y stores =>
      have hx : x ∉ prims := (List.nodup_cons.mp hnodup).1
      have hnd : prims.Nodup := (List.nodup_cons.mp hnodup).2
      have hlen' : prims.length = stores.length := by simpa using hlen
      cases i with
      | zero =>
        simp only [List.getElem?_cons_zero, Option.some.injEq] at hptr hs
        subst hptr hs
        obtain ⟨q, _, hq, _⟩ := hvalid x (List.mem_cons_self x prims)
        rw [List.zip_cons_cons, Heap.putAll, putAll_get_of_not_mem _ _ _
          (by rw [List.map_fst_zip _ _ (le_of_eq hlen')]; exact hx)]
        exact heap_get_put_self H x q _ hq
      | succ j =>
        simp only [List.getElem?_cons_succ] at hptr hs
        rw [List.zip_cons_cons, Heap.putAll]
        exact ih stores _ hlen' hnd
          (fun z hz => holdsStore_put H x z _ ⟨y, rfl⟩ (hvalid z (List.mem_cons_of_mem x hz)))
          j hptr hs

theorem primitive_append_left (a b : List Ptr) (i : Nat) (hi : i < a.length) :
    AttributeTopology.primitive { mPrimitives := a ++ b } i =
      AttributeTopology.primitive { mPrimitives := a } i := by
  have hi' : i < a.length + b.length := Nat.lt_of_lt_of_le hi (Nat.le_add_right _ _)
  simp [AttributeTopology.primitive, hi, hi', List.getElem_append_left]

theorem primitive_append_new (a : List Ptr) (base n j : Nat) (hj : j < n) :
    AttributeTopology.primitive
      { mPrimitives := a ++ (List.range' base n).map some } (a.length + j) =
      some (base + j) := by
  have hopt : (a ++ (List.range' base n).map some)[a.length + j]? = some (some (base + j)) := by
    rw [List.getElem?_append_right (Nat.le_add_right _ _)]
    simp [hj]
  have hlt : a.length + j < (a ++ (List.range' base n).map some).length := by
    simp [hj]
  have hprim := primitive_of_lt { mPrimitives := a ++ (List.range' base n).map some }
    (a.length + j) hlt
  rw [hopt] at hprim
  exact (Option.some.inj hprim).symm

theorem holdsStore_lt (h : Heap) (ptr : Ptr) (hvalid : h.HoldsStore ptr) :
    ∃ a, ptr = some a ∧ a < h.length := by
  obtain ⟨q, _, hq, _⟩ := hvalid
  cases ptr with
  | none => simp [Heap.get, throw, throwThe, MonadExceptOf.throw] at hq
  | some a => exact ⟨a, rfl, (heap_get_some_lt h a q hq).1⟩

theorem handles_nodup (h : Heap) (olds : List Ptr) (n : Nat) (hnodup : olds.Nodup)
    (hold : ∀ ptr ∈ olds, h.HoldsStore ptr) :
    (olds ++ (List.range' h.length n).map some).Nodup := by
  rw [List.nodup_append]
  refine ⟨hnodup, ?_, ?_⟩
  · exact (List.nodup_range' h.length n).map (Option.some_injective _)
  · intro ptr hptr hnew
    obtain ⟨a, rfl, ha⟩ := holdsStore_lt h ptr (hold ptr hptr)
    obtain ⟨b, hb, hab⟩ := List.mem_map.mp hnew
    have hge : h.length ≤ b := (List.mem_range'_1.mp hb).1
    have hba : b = a := Option.some.inj hab
    omega

theorem handles_valid (h : Heap) (olds : List Ptr) (shapes : List (Nat × Nat))
    (hold : ∀ ptr ∈ olds, h.HoldsStore ptr) :
    ∀ ptr ∈ olds ++ (List.range' h.length shapes.length).map some,
      Heap.HoldsStore
        (h ++ shapes.map (fun vs => Primitive.new (vs.2 % UINT32_RANGE) (vs.1 % UINT16_RANGE)))
        ptr := by
  intro ptr hptr
  rcases List.mem_append.mp hptr with hmem | hmem
  · obtain ⟨q, s, hq, hs⟩ := hold ptr hmem
    exact ⟨q, s, heap_get_append h _ ptr q hq, hs⟩
  · obtain ⟨b, hb, rfl⟩ := List.mem_map.mp hmem
    obtain ⟨hge, hlt⟩ := List.mem_range'_1.mp hb
    obtain ⟨j, rfl⟩ : ∃ j, b = h.length + j := ⟨b - h.length, by omega⟩
    have hj : j < shapes.length := by omega
    refine ⟨Primitive.new (shapes[j].2 % UINT32_RANGE) (shapes[j].1 % UINT16_RANGE), _, ?_, rfl⟩
    exact heap_get_append_right h _ j _ (by simp [hj])

/-- C18: `AttributeTopology::read` appends rather than replaces.  After a
successful `read` on a topology that holds `k` handles, with a stream that
announces `n` primitives, the `k` handles are at positions `0..k-1` as before
and `n` handles to newly constructed primitives are at positions `k..k+n-1`.
`Primitive::read` is invoked on all `k + n` primitives in sequence order: on a
stream that carries `k + n` payloads after the `n` headers, `read` succeeds and
assigns payload `i` through the handle at position `i`, so that, when the
handles are distinct, the primitive at position `i` holds the store of payload
`i`: the old primitives consume the first `k` payloads and the new primitive
`j` receives payload `k + j`, its own only for `k = 0`. -/
theorem read_appends (ndebug : Bool) (h : Heap) (t : AttributeTopology) :
    (∀ (is : IStream) (h' : Heap) (t' : AttributeTopology) (is' : IStream),
      t.read ndebug h is = .ok (h', t', is') →
      t'.mPrimitives = t.mPrimitives ++
        (List.range' h.length (decodeLE (is.read (encodeLE 4 0) 4).1)).map some ∧
      t'.mPrimitives.length =
        t.mPrimitives.length + decodeLE (is.read (encodeLE 4 0) 4).1 ∧
      (∀ i, i < t.mPrimitives.length → t'.primitive i = t.primitive i) ∧
      (∀ j, j < decodeLE (is.read (encodeLE 4 0) 4).1 →
        t'.primitive (t.mPrimitives.length + j) = some (h.length + j))) ∧
    (∀ (shapes : List (Nat × Nat)) (stores : List AttributeSet),
      shapes.length < UINT32_RANGE →
      (∀ vs ∈ shapes, ndebug = true ∨ 0 < vs.1 % UINT16_RANGE) →
      (∀ ptr ∈ t.mPrimitives, h.HoldsStore ptr) →
      stores.length = t.mPrimitives.length + shapes.length →
      (∀ s ∈ stores, s.Serializable) →
      t.read ndebug h
          { data := encodeLE 4 shapes.length ++
              (headersBytes shapes ++ (stores.map AttributeSet.payload).flatten),
            failbit := false } =
        .ok (Heap.putAll
            (h ++ shapes.map
              (fun vs => Primitive.new (vs.2 % UINT32_RANGE) (vs.1 % UINT16_RANGE)))
            ((t.mPrimitives ++ (List.range' h.length shapes.length).map some).zip stores),
          { mPrimitives := t.mPrimitives ++ (List.range' h.length shapes.length).map some },
          { data := [], failbit := false }) ∧
      (t.mPrimitives.Nodup → ∀ i s, stores[i]? = some s →
        Heap.get (Heap.putAll
            (h ++ shapes.map
              (fun vs => Primitive.new (vs.2 % UINT32_RANGE) (vs.1 % UINT16_RANGE)))
            ((t.mPrimitives ++ (List.range' h.length shapes.length).map some).zip stores))
          (AttributeTopology.primitive
            { mPrimitives := t.mPrimitives ++ (List.range' h.length shapes.length).map some }
            i) =
          .ok { mAttributeSet := some s })) := by
  constructor
  · intro is h' t' is' hok
    obtain ⟨h1, is1, hheaders, _⟩ := read_ok_inv ndebug h h' t t' is is' hok
    obtain ⟨news, _, _, hprims, _⟩ := readHeaders_structure _ _ _ _ _ _ _ _ hheaders
    have ht' : t' = { mPrimitives := t.mPrimitives ++
        (List.range' h.length (decodeLE (is.read (encodeLE 4 0) 4).1)).map some } := by
      cases t'
      simp_all
    refine ⟨hprims, by simp [hprims], fun i hi => ?_, fun j hj => ?_⟩
    · rw [ht']
      exact primitive_append_left _ _ i hi
    · rw [ht']
      exact primitive_append_new _ _ _ j hj
  · intro shapes stores hcount hassert hold hstores hser
    have hlen : (t.mPrimitives ++ (List.range' h.length shapes.length).map some).length =
        stores.length := by
      simp [hstores]
    have hvalid := handles_valid h t.mPrimitives shapes hold
    have hrh := readHeaders_eq ndebug shapes h t.mPrimitives
      ((stores.map AttributeSet.payload).flatten) hassert
    have hrp := readPayloads_general _ stores _ [] hlen hvalid hser
    rw [List.append_nil] at hrp
    refine ⟨?_, fun hnodup i s hs => ?_⟩
    · simp only [AttributeTopology.read,
        istream_read_append (encodeLE 4 shapes.length) _ _ 4 (encodeLE_length 4 _),
        decodeLE_encodeLE_four, Nat.mod_eq_of_lt hcount, hrh, hrp, bind, Except.bind, pure,
        Except.pure]
    · have hi : i < (t.mPrimitives ++ (List.range' h.length shapes.length).map some).length := by
        rw [hlen]
        by_contra hge
        rw [List.getElem?_eq_none (Nat.le_of_not_lt hge)] at hs
        exact Option.noConfusion hs
      exact putAll_get _ stores _ hlen (handles_nodup h t.mPrimitives shapes.length hnodup hold)
        hvalid i _ s (primitive_of_lt _ i hi) hs

theorem read_appends_witness :
    (AttributeTopology.mk [some 0]).read false [Primitive.new 10 3]
        { data := encodeLE 4 [((4 : Nat), (15 : Nat))].length ++
            (headersBytes [(4, 15)] ++
              ([testQuadsStore, testStore].map AttributeSet.payload).flatten),
          failbit := false } =
      .ok (Heap.putAll
          ([Primitive.new 10 3] ++ [((4 : Nat), (15 : Nat))].map
            (fun vs => Primitive.new (vs.2 % UINT32_RANGE) (vs.1 % UINT16_RANGE)))
          (((AttributeTopology.mk [some 0]).mPrimitives ++
            (List.range' [Primitive.new 10 3].length
              [((4 : Nat), (15 : Nat))].length).map some).zip [testQuadsStore, testStore]),
        { mPrimitives := (AttributeTopology.mk [some 0]).mPrimitives ++
            (List.range' [Primitive.new 10 3].length [((4 : Nat), (15 : Nat))].length).map some },
        { data := [], failbit := false }) ∧
    ((AttributeTopology.mk [some 0]).mPrimitives.Nodup → ∀ i s,
      [testQuadsStore, testStore][i]? = some s →
      Heap.get (Heap.putAll
          ([Primitive.new 10 3] ++ [((4 : Nat), (15 : Nat))].map
            (fun vs => Primitive.new (vs.2 % UINT32_RANGE) (vs.1 % UINT16_RANGE)))
          (((AttributeTopology.mk [some 0]).mPrimitives ++
            (List.range' [Primitive.new 10 3].length
              [((4 : Nat), (15 : Nat))].length).map some).zip [testQuadsStore, testStore]))
        (AttributeTopology.primitive
          { mPrimitives := (AttributeTopology.mk [some 0]).mPrimitives ++
              (List.range' [Primitive.new 10 3].length
                [((4 : Nat), (15 : Nat))].length).map some }
          i) =
        .ok { mAttributeSet := some s }) :=
  (read_appends false [Primitive.new 10 3] (AttributeTopology.mk [some 0])).2
    [(4, 15)] [testQuadsStore, testStore] (by decide)
    (fun vs hvs => by
      have hvs' : vs = (4, 15) := by simpa using hvs
      subst hvs'
      exact Or.inr (by decide))
    (fun ptr hptr => by
      have hptr' : ptr = some 0 := by simpa using hptr
      subst hptr'
      exact ⟨Primitive.new 10 3, _, rfl, rfl⟩)
    rfl
    (fun s hs => by
      have hcases : s = testQuadsStore ∨ s = testStore := by simpa using hs
      rcases hcases with rfl | rfl <;> decide)

set_option maxRecDepth 100000 in
/-- The scenario of C18, evaluated: the triangles are in the topology, the
stream announces one primitive of shape 15/4 and carries the payload of the
quads and then the payload of the triangles.  Afterwards the old primitive
holds the store of the quads and the new primitive, constructed as
`Primitive(15, 4)`, holds the store of the triangles. -/
theorem read_appends_scenario :
    (AttributeTopology.mk [some 0]).read false [Primitive.new 10 3]
        { data := encodeLE 4 1 ++ (headersBytes [(4, 15)] ++
            (testQuadsStore.payload ++ testStore.payload)), failbit := false } =
      .ok ([Primitive.new 15 4, Primitive.new 10 3], AttributeTopology.mk [some 0, some 1],
        { data := [], failbit := false }) := by
  rfl

end openvdb.points
